import Mathlib

/-
Verification of the scoring engine of the x-aiexpert-social-map repository
(scripts/quanzhong_model.py, association-centrality-skill/scripts/build_circle_layers.py,
quanzhong-skill/scripts/quanzhong_rank.py), as a shallow embedding in Lean 4.

Modeling conventions:
* Python strings are modeled as `List Char` (`PyStr`); `str.strip`, `str.lower`,
  `str.upper` are modeled for ASCII case letters and ASCII whitespace, which covers
  every string the scoring path manipulates.
* Python floats are idealized as exact rationals (`ℚ`); `round(x, n)` is modeled as
  exact round-half-to-even on the scaled rational.
* Python dicts with a fixed default (`{nid: v0 for nid in node_ids}` updated in place,
  read back only at keys of `node_ids`) are modeled as total functions `PyStr → ℚ`
  initialized to the default; every read and write the scoring code performs agrees
  with the dict semantics on such keys.
* Loosely-typed input values (graph `followers`, engagement counters, link weights)
  are modeled by the sum type `PyVal` (integer, string, or None).
* The eleven fixed indicator keys of `compute_quanzhong_metrics` are modeled by the
  enumerated type `IndName`.
* `math.log10` and `math.sqrt` (the latter inside `statistics.pstdev`) are the only
  irrational primitives the code uses; the embedding is parametric in them
  (`lg sq : ℚ → ℚ`), and theorems assume only the properties actually needed
  (e.g. nonnegativity of the square root).
-/

set_option maxHeartbeats 1000000
set_option maxRecDepth 4000

/-- Python strings, modeled as lists of characters. -/
abbrev PyStr := List Char

/-- ASCII whitespace recognized by `str.strip()`. -/
def pyWs (c : Char) : Bool :=
  c = ' ' ∨ c = '\t' ∨ c = '\n' ∨ c = '\r' ∨ c = '\x0b' ∨ c = '\x0c'

/-- `str.strip()`: remove leading and trailing whitespace. -/
def pyStrip (s : PyStr) : PyStr :=
  ((s.dropWhile pyWs).reverse.dropWhile pyWs).reverse

/-- `str.lower()` on one character (ASCII letters; other characters unchanged). -/
def pyLowerCh (c : Char) : Char :=
  if 'A' ≤ c ∧ c ≤ 'Z' then Char.ofNat (c.toNat + 32) else c

/-- `str.upper()` on one character (ASCII letters; other characters unchanged). -/
def pyUpperCh (c : Char) : Char :=
  if 'a' ≤ c ∧ c ≤ 'z' then Char.ofNat (c.toNat - 32) else c

/-- `str.lower()` on a whole string. -/
def pyLower (s : PyStr) : PyStr := s.map pyLowerCh

/-- Loosely-typed Python input values reaching the numeric-coercion helpers. -/
inductive PyVal where
  | int (n : ℤ)
  | str (s : PyStr)
  | vnone
deriving DecidableEq

/-- Value of a list of decimal digit characters (most significant first). -/
def digitsVal (cs : List Char) : ℕ :=
  cs.foldl (fun a c => 10 * a + (c.toNat - 48)) 0

/-- Tail of a Python integer literal after its first digit: digits with single
underscores allowed between digits. -/
def okTail : List Char → Bool
  | [] => true
  | c :: rest =>
    if c = '_' then
      match rest with
      | [] => false
      | c2 :: rest2 => c2.isDigit && okTail (c2 :: rest2)
    else c.isDigit && okTail rest

/-- A nonempty digit run with optional single underscores between digits
(the body of a Python `int` literal). -/
def okDigitsU (cs : List Char) : Bool :=
  match cs with
  | [] => false
  | c :: rest => c.isDigit && okTail rest

/-- `int(s)` on a Python string: optional surrounding whitespace, optional sign,
then digits (with optional single underscores).  Returns `none` when Python would
raise `ValueError`. -/
def pyIntLit? (s : PyStr) : Option ℤ :=
  match pyStrip s with
  | [] => Option.none
  | c :: r =>
    if c = '+' then
      (if okDigitsU r then some ((digitsVal (r.filter Char.isDigit) : ℤ)) else Option.none)
    else if c = '-' then
      (if okDigitsU r then some (-((digitsVal (r.filter Char.isDigit) : ℤ))) else Option.none)
    else if okDigitsU (c :: r) then some ((digitsVal ((c :: r).filter Char.isDigit) : ℤ))
    else Option.none

/-- Floor of a rational (`⌊q⌋`, in kernel-computable form). -/
def ratFloor (q : ℚ) : ℤ := q.num / (q.den : ℤ)

/-- `int(x)` on a float: truncation toward zero. -/
def ratTrunc (q : ℚ) : ℤ := if q < 0 then -(ratFloor (-q)) else ratFloor q

/-- The anchored regular expression `^([0-9]+(?:\.[0-9]+)?)([KMB])?$` of `to_int`,
returning the decimal value of group 1 and the optional suffix letter. -/
def matchNum (text : PyStr) : Option (ℚ × Option Char) :=
  let d1 := text.takeWhile Char.isDigit
  let r1 := text.dropWhile Char.isDigit
  if d1 = [] then Option.none else
  match r1 with
  | [] => some ((digitsVal d1 : ℚ), Option.none)
  | '.' :: r2 =>
    let d2 := r2.takeWhile Char.isDigit
    let r3 := r2.dropWhile Char.isDigit
    if d2 = [] then Option.none else
    let q : ℚ := (digitsVal d1 : ℚ) + (digitsVal d2 : ℚ) / 10 ^ d2.length
    match r3 with
    | [] => some (q, Option.none)
    | [c] => if c = 'K' ∨ c = 'M' ∨ c = 'B' then some (q, some c) else Option.none
    | _ => Option.none
  | [c] => if c = 'K' ∨ c = 'M' ∨ c = 'B' then some ((digitsVal d1 : ℚ), some c) else Option.none
  | _ => Option.none

/-- The scaling applied by `to_int` for each suffix letter. -/
def suffixScale (sfx : Option Char) : ℚ :=
  match sfx with
  | some 'K' => 1000
  | some 'M' => 1000000
  | some 'B' => 1000000000
  | _ => 1

/-- The fallback path of `to_int` on the normalized text
(`strip → upper → remove commas` already applied by the caller). -/
def toIntText (text : PyStr) : ℤ :=
  match matchNum text with
  | some (q, sfx) => ratTrunc (q * suffixScale sfx)
  | Option.none =>
    let ds := text.filter Char.isDigit
    if ds = [] then 0 else (digitsVal ds : ℤ)

/-- `to_int` from scripts/quanzhong_model.py: lenient integer coercion.
`int(value)` is attempted first; on failure the text is stripped, uppercased and
de-comma'd, matched against a decimal-with-suffix pattern, and as a last resort
all non-digits are removed (empty → 0). -/
def to_int (value : PyVal) : ℤ :=
  match value with
  | .int n => n
  | .vnone => toIntText (((pyStrip []).map pyUpperCh).filter (fun c => ¬ (c = ',')))
  | .str s =>
    match pyIntLit? s with
    | some n => n
    | Option.none =>
      let text0 : PyStr := if s = [] then [] else s
      toIntText (((pyStrip text0).map pyUpperCh).filter (fun c => ¬ (c = ',')))

/-- `min(values)` over a nonempty list (0 on the empty list, mirroring the guarded
call sites). -/
def pyMin (l : List ℚ) : ℚ :=
  match l with
  | [] => 0
  | x :: xs => xs.foldl min x

/-- `max(values)` over a nonempty list (0 on the empty list, mirroring the guarded
call sites). -/
def pyMax (l : List ℚ) : ℚ :=
  match l with
  | [] => 0
  | x :: xs => xs.foldl max x

/-- `_minmax` from scripts/quanzhong_model.py (identical to `minmax` in
build_circle_layers.py): min-max normalization with degenerate-range fallback. -/
def _minmax (values : List ℚ) : List ℚ :=
  if values = [] then []
  else
    let lo := pyMin values
    let hi := pyMax values
    if hi ≤ lo then values.map (fun _ => (0 : ℚ))
    else values.map (fun v => (v - lo) / (hi - lo))

/-- Round half to even on a rational, to an integer. -/
def rndHalfEven (q : ℚ) : ℤ :=
  if q - ratFloor q < 1/2 then ratFloor q
  else if (1:ℚ)/2 < q - ratFloor q then ratFloor q + 1
  else if ratFloor q % 2 = 0 then ratFloor q else ratFloor q + 1

/-- Python `round(x, nd)` on the idealized rational value. -/
def pyRound (q : ℚ) (nd : ℕ) : ℚ := (rndHalfEven (q * 10 ^ nd) : ℚ) / 10 ^ nd

/-- A raw link endpoint: a bare string, a record with `id`/`handle`/`name` fields,
or `None`. -/
inductive PyEndpoint where
  | str (s : PyStr)
  | ref (id handle name : Option PyStr)
  | vnone
deriving DecidableEq

/-- First truthy (present and nonempty) value in a list of optional strings. -/
def firstTruthy : List (Option PyStr) → Option PyStr
  | [] => Option.none
  | some s :: rest => if s = [] then firstTruthy rest else some s
  | Option.none :: rest => firstTruthy rest

/-- `endpoint` from scripts/quanzhong_model.py (identical in build_circle_layers.py):
resolve a raw endpoint to a trimmed id string, preferring `id`, then `handle`,
then `name` for record endpoints. -/
def endpoint (value : PyEndpoint) : PyStr :=
  match value with
  | .ref i h n =>
    match firstTruthy [i, h, n] with
    | some v => pyStrip v
    | Option.none => []
  | .str s => pyStrip s
  | .vnone => []

/-- A graph node record (the profile fields read by the scoring path). -/
structure QNode where
  id : Option PyStr := Option.none
  handle : Option PyStr := Option.none
  name : Option PyStr := Option.none
  group : Option PyStr := Option.none
  role : Option PyStr := Option.none
  associated : Option PyStr := Option.none
  bio : Option PyStr := Option.none
  bioTags : Option (List PyStr) := Option.none
  followers : Option PyVal := Option.none
deriving DecidableEq

/-- `str(node.get("id") or node.get("handle") or "").strip()`. -/
def nodeIdOf (node : QNode) : PyStr :=
  pyStrip (match firstTruthy [node.id, node.handle] with
    | some v => v
    | Option.none => [])

/-- The `node_ids` list built by `compute_quanzhong_metrics` (and `build_layers`):
one entry per dict node record with a nonempty resolved id, in input order. -/
def nodeIdsOf (nodes : List (Option QNode)) : List PyStr :=
  nodes.filterMap (fun onode =>
    match onode with
    | Option.none => Option.none
    | some node =>
      let nid := nodeIdOf node
      if nid = [] then Option.none else some nid)

/-- The `node_map` dict: last node record assigned to each nonempty id. -/
def nodeMapOf (nodes : List (Option QNode)) (nid : PyStr) : Option QNode :=
  if nid = [] then Option.none
  else
    (nodes.filterMap (fun onode => onode.bind (fun node =>
      if nodeIdOf node = nid then some node else Option.none))).getLast?

/-- A raw link record (`None` entries in the links list model non-dict records). -/
structure RawLink where
  source : PyEndpoint := .vnone
  target : PyEndpoint := .vnone
  weight : Option PyVal := Option.none
deriving DecidableEq

/-- The edge-acceptance test shared by both modules: both endpoints resolve to
nonempty strings, are distinct, and name known nodes. -/
def acceptLink (nodes : List (Option QNode)) (olk : Option RawLink) :
    Option (PyStr × PyStr) :=
  match olk with
  | Option.none => Option.none
  | some lk =>
    let s := endpoint lk.source
    let t := endpoint lk.target
    if s = [] ∨ t = [] ∨ s = t then Option.none
    else if s ∈ nodeIdsOf nodes ∧ t ∈ nodeIdsOf nodes then some (s, t)
    else Option.none

/-- The `link_pairs` list of `compute_quanzhong_metrics`: every accepted ordered
pair, one entry per raw link (duplicates preserved). -/
def link_pairs (nodes : List (Option QNode)) (links : List (Option RawLink)) :
    List (PyStr × PyStr) :=
  links.filterMap (acceptLink nodes)

/-- The `out_map` adjacency dict accumulated over accepted pairs
(`out_map[s].add(t)`), as a total function defaulting to the empty set. -/
def outMapOf (ps : List (PyStr × PyStr)) : PyStr → Finset PyStr :=
  ps.foldl (fun m p => Function.update m p.1 (insert p.2 (m p.1))) (fun _ => ∅)

/-- The `in_map` adjacency dict (`in_map[t].add(s)`). -/
def inMapOf (ps : List (PyStr × PyStr)) : PyStr → Finset PyStr :=
  ps.foldl (fun m p => Function.update m p.2 (insert p.1 (m p.2))) (fun _ => ∅)

/-- Character class of the token pattern `[a-z0-9_]+|[一-鿿]+`:
`some true` for the latin class, `some false` for the CJK class. -/
def tokenClass (c : Char) : Option Bool :=
  if ('a' ≤ c ∧ c ≤ 'z') ∨ ('0' ≤ c ∧ c ≤ '9') ∨ c = '_' then some true
  else if 0x4e00 ≤ c.toNat ∧ c.toNat ≤ 0x9fff then some false
  else Option.none

theorem dropWhile_length_le {α : Type} (p : α → Bool) (l : List α) :
    (l.dropWhile p).length ≤ l.length := by
  induction l with
  | nil => simp [List.dropWhile]
  | cons a as ih =>
    simp only [List.dropWhile]
    cases p a
    · simp
    · simp
      omega

/-- `re.findall` of the token pattern: maximal same-class runs. -/
def tokenRuns : List Char → List PyStr
  | [] => []
  | c :: rest =>
    match tokenClass c with
    | Option.none => tokenRuns rest
    | some b =>
      (c :: rest.takeWhile (fun d => tokenClass d = some b)) ::
        tokenRuns (rest.dropWhile (fun d => tokenClass d = some b))
termination_by l => l.length
decreasing_by
  · simp only [List.length_cons]; omega
  · simp only [List.length_cons]
    exact Nat.lt_succ_of_le (dropWhile_length_le _ _)

/-- `_tokenize` from scripts/quanzhong_model.py: join the items with spaces,
lowercase, extract token runs, keep those of length ≥ 2. -/
def _tokenize (items : List PyStr) : Finset PyStr :=
  let blob := pyLower (List.intercalate [' '] items)
  ((tokenRuns blob).filter (fun p => 2 ≤ p.length)).toFinset

/-- The module-level `AI_KEYWORDS` set (listed here; the set literal order is
irrelevant since it is only queried for membership). -/
def AI_KEYWORDS : List PyStr :=
  ["ai".toList, "artificial".toList, "intelligence".toList, "llm".toList,
   "agent".toList, "agents".toList, "model".toList, "models".toList,
   "openai".toList, "anthropic".toList, "deepmind".toList, "gemini".toList,
   "gpt".toList, "transformer".toList, "research".toList, "researcher".toList,
   "scientist".toList, "machine".toList, "learning".toList, "ml".toList,
   "pytorch".toList, "langchain".toList, "inference".toList, "token".toList,
   "alignment".toList, "reasoning".toList, "robot".toList, "robotics".toList,
   "创业".toList, "大模型".toList, "智能".toList, "算法".toList,
   "机器学习".toList, "人工智能".toList]

/-- `str(tags)`-style blob for the `bioTags` field (list joined with spaces,
missing → empty). -/
def tagsBlob (node : QNode) : PyStr :=
  match node.bioTags with
  | some tags => List.intercalate [' '] tags
  | Option.none => []

/-- Token set of one node (name, handle, group, role, associated, bio, tags). -/
def tokensOf (node : QNode) : Finset PyStr :=
  _tokenize [node.name.getD [], node.handle.getD [], node.group.getD [],
             node.role.getD [], node.associated.getD [], node.bio.getD [],
             tagsBlob node]

/-- The `token_map` dict keyed by node id. -/
def tokenMapOf (nodes : List (Option QNode)) (nid : PyStr) : Finset PyStr :=
  ((nodeMapOf nodes nid).map tokensOf).getD ∅

/-- `sem_raw[nid] = min(1.0, hit / 8.0)` where `hit` counts keywords present in
the node's token set. -/
def semRawOf (nodes : List (Option QNode)) (nid : PyStr) : ℚ :=
  let hit : ℕ := (AI_KEYWORDS.filter (fun w => w ∈ tokenMapOf nodes nid)).length
  min 1 ((hit : ℚ) / 8)

/-- `_jaccard` from scripts/quanzhong_model.py. -/
def _jaccard (a b : Finset PyStr) : ℚ :=
  if a = ∅ ∧ b = ∅ then 0
  else
    let u := a ∪ b
    if u = ∅ then 0 else ((a ∩ b).card : ℚ) / (u.card : ℚ)

/-- One inner step of a PageRank iteration: distribute the mass of `src`
(`if outs:` split over out-neighbors; else the dangling redistribution loop
`for dst in node_ids: nxt[dst] += share`, which visits list entries with
multiplicity). -/
def prStepOne (ids : List PyStr) (out : PyStr → Finset PyStr) (d : ℚ) (n : ℕ)
    (pr : PyStr → ℚ) (nxt : PyStr → ℚ) (src : PyStr) : PyStr → ℚ :=
  if (out src).Nonempty then
    fun dst =>
      if dst ∈ out src then nxt dst + d * pr src / ((out src).card : ℚ) else nxt dst
  else
    ids.foldl (fun m dst => Function.update m dst (m dst + d * pr src / (n : ℚ))) nxt

/-- One full PageRank iteration: fresh `nxt` dict at the teleport base, then the
per-source distribution loop. -/
def prIter (ids : List PyStr) (out : PyStr → Finset PyStr) (d : ℚ) (n : ℕ)
    (pr : PyStr → ℚ) : PyStr → ℚ :=
  ids.foldl (prStepOne ids out d n pr) (fun _ => (1 - d) / (n : ℚ))

/-- `_pagerank` from scripts/quanzhong_model.py (identical to `pagerank` in
build_circle_layers.py): uniform start, `iterations` power steps, empty mapping
(the zero function) for an empty node list.  The source defaults, applied at
every call site, are `damping=0.85` and `iterations=30`. -/
def _pagerank (node_ids : List PyStr) (out_map : PyStr → Finset PyStr)
    (damping : ℚ) (iterations : ℕ) : PyStr → ℚ :=
  if node_ids.length = 0 then (fun _ => 0)
  else
    (prIter node_ids out_map damping node_ids.length)^[iterations]
      (fun _ => 1 / (node_ids.length : ℚ))

/-- `reciprocal_count` of `compute_quanzhong_metrics`: the loop over `link_pairs`
(one increment per list entry whose reverse edge is present). -/
def reciprocalCountOf (nodes : List (Option QNode)) (links : List (Option RawLink)) :
    PyStr → ℤ :=
  let pairs := link_pairs nodes links
  let out := outMapOf pairs
  pairs.foldl
    (fun m p => if p.1 ∈ out p.2 then Function.update m p.1 (m p.1 + 1) else m)
    (fun _ => 0)

/-- `cross_follow_ratio[nid] = reciprocal_count[nid] / max(1, len(out_map[nid]))`. -/
def crossFollowRatioOf (nodes : List (Option QNode)) (links : List (Option RawLink))
    (nid : PyStr) : ℚ :=
  let out_n : ℕ := max 1 (outMapOf (link_pairs nodes links) nid).card
  (reciprocalCountOf nodes links nid : ℚ) / (out_n : ℚ)

/-- `reciprocal = 1.0 if s in out_map.get(t, set()) else 0.0`. -/
def edgeReciprocal (out : PyStr → Finset PyStr) (s t : PyStr) : ℚ :=
  if s ∈ out t then 1.0 else 0.0

/-- `structural = 0.50*reciprocal + 0.25*shared_out + 0.25*shared_in`. -/
def edgeStructural (out inm : PyStr → Finset PyStr) (s t : PyStr) : ℚ :=
  0.50 * edgeReciprocal out s t + 0.25 * _jaccard (out s) (out t) +
    0.25 * _jaccard (inm s) (inm t)

/-- `semantic_sim = _jaccard(token_map[s], token_map[t])`. -/
def edgeSemantic (tok : PyStr → Finset PyStr) (s t : PyStr) : ℚ :=
  _jaccard (tok s) (tok t)

/-- `edge_weight = max(0.02, min(1.0, 0.65*structural + 0.35*semantic_sim))`. -/
def edgeWeightVal (out inm : PyStr → Finset PyStr) (tok : PyStr → Finset PyStr)
    (s t : PyStr) : ℚ :=
  max 0.02 (min 1.0 (0.65 * edgeStructural out inm s t + 0.35 * edgeSemantic tok s t))

/-- One record of the `weighted_links` output list. -/
structure WLink where
  source : PyStr
  target : PyStr
  weight : ℚ
  structural : ℚ
  semantic_similarity : ℚ
  reciprocal : ℤ
deriving DecidableEq

/-- One `weighted_links` record for an accepted pair (fields rounded to 6
decimal places as in the source). -/
def wlinkEntry (out inm tok : PyStr → Finset PyStr) (p : PyStr × PyStr) : WLink :=
  { source := p.1
    target := p.2
    weight := pyRound (edgeWeightVal out inm tok p.1 p.2) 6
    structural := pyRound (edgeStructural out inm p.1 p.2) 6
    semantic_similarity := pyRound (edgeSemantic tok p.1 p.2) 6
    reciprocal := ratTrunc (edgeReciprocal out p.1 p.2) }

/-- The `weighted_links` list: one record per `link_pairs` entry. -/
def weightedLinksOf (nodes : List (Option QNode)) (links : List (Option RawLink)) :
    List WLink :=
  link_pairs nodes links |>.map
    (wlinkEntry (outMapOf (link_pairs nodes links)) (inMapOf (link_pairs nodes links))
      (tokenMapOf nodes))

/-- The `weighted_degree` dict: both endpoints of every `link_pairs` entry
accumulate the (unrounded) edge weight. -/
def weightedDegreeOf (nodes : List (Option QNode)) (links : List (Option RawLink)) :
    PyStr → ℚ :=
  let pairs := link_pairs nodes links
  let out := outMapOf pairs
  let inm := inMapOf pairs
  let tok := tokenMapOf nodes
  pairs.foldl (fun wd p =>
    let w := edgeWeightVal out inm tok p.1 p.2
    let wd1 := Function.update wd p.1 (wd p.1 + w)
    Function.update wd1 p.2 (wd1 p.2 + w)) (fun _ => 0)

/-- One engagement record (the four counters, each under its long or short key). -/
structure ERec where
  posts_count : Option PyVal := Option.none
  posts : Option PyVal := Option.none
  comments_count : Option PyVal := Option.none
  comments : Option PyVal := Option.none
  likes_count : Option PyVal := Option.none
  likes : Option PyVal := Option.none
  reposts_count : Option PyVal := Option.none
  reposts : Option PyVal := Option.none
deriving DecidableEq

/-- `node.get("X") or default` for string fields (Python `or` on truthiness). -/
def truthyOr (v : Option PyStr) (dflt : PyStr) : PyStr :=
  match v with
  | some s => if s = [] then dflt else s
  | Option.none => dflt

/-- The engagement lookup key:
`str(node.get("handle") or nid).strip().lstrip("@").lower()`. -/
def engKeyOf (nodes : List (Option QNode)) (nid : PyStr) : PyStr :=
  let node := (nodeMapOf nodes nid).getD {}
  pyLower ((pyStrip (truthyOr node.handle nid)).dropWhile (fun c => c = '@'))

/-- `rec = emap.get(handle) or emap.get(nid.lower()) or {}`. -/
def engRecOf (nodes : List (Option QNode)) (emap : PyStr → Option ERec)
    (nid : PyStr) : ERec :=
  match emap (engKeyOf nodes nid) with
  | some r => r
  | Option.none => (emap (pyLower nid)).getD {}

/-- `float(to_int(rec.get(longKey, rec.get(shortKey, 0))))`. -/
def engVal (a b : Option PyVal) : ℚ := (to_int (a.getD (b.getD (.int 0))) : ℚ)

def postsOf (nodes : List (Option QNode)) (emap : PyStr → Option ERec)
    (nid : PyStr) : ℚ :=
  engVal (engRecOf nodes emap nid).posts_count (engRecOf nodes emap nid).posts

def commentsOf (nodes : List (Option QNode)) (emap : PyStr → Option ERec)
    (nid : PyStr) : ℚ :=
  engVal (engRecOf nodes emap nid).comments_count (engRecOf nodes emap nid).comments

def likesOf (nodes : List (Option QNode)) (emap : PyStr → Option ERec)
    (nid : PyStr) : ℚ :=
  engVal (engRecOf nodes emap nid).likes_count (engRecOf nodes emap nid).likes

def repostsOf (nodes : List (Option QNode)) (emap : PyStr → Option ERec)
    (nid : PyStr) : ℚ :=
  engVal (engRecOf nodes emap nid).reposts_count (engRecOf nodes emap nid).reposts

/-- `to_int(node_map[nid].get("followers", 0))`. -/
def followersOf (nodes : List (Option QNode)) (nid : PyStr) : ℤ :=
  to_int (((nodeMapOf nodes nid).getD {}).followers.getD (.int 0))

/-- The eleven fixed indicator keys of `compute_quanzhong_metrics`. -/
inductive IndName where
  | followers_log | in_degree | out_degree | weighted_degree | pagerank
  | semantic_ai | cross_follow_ratio | posts_count | comments_count
  | likes_count | reposts_count
deriving DecidableEq

/-- The `ind_names` list, in source order. -/
def ind_names : List IndName :=
  [.followers_log, .in_degree, .out_degree, .weighted_degree, .pagerank,
   .semantic_ai, .cross_follow_ratio, .posts_count, .comments_count,
   .likes_count, .reposts_count]

/-- The `ind_raw` dict: each indicator's raw per-node list, in `node_ids` order.
`lg` is the `math.log10` primitive. -/
def indRawOf (nodes : List (Option QNode)) (links : List (Option RawLink))
    (emap : PyStr → Option ERec) (lg : ℚ → ℚ) : IndName → List ℚ :=
  let ids := nodeIdsOf nodes
  fun nm =>
    match nm with
    | .followers_log => ids.map (fun nid => lg ((max 1 (followersOf nodes nid) : ℤ) : ℚ))
    | .in_degree => ids.map (fun nid => ((inMapOf (link_pairs nodes links) nid).card : ℚ))
    | .out_degree => ids.map (fun nid => ((outMapOf (link_pairs nodes links) nid).card : ℚ))
    | .weighted_degree => ids.map (weightedDegreeOf nodes links)
    | .pagerank => ids.map (_pagerank ids (outMapOf (link_pairs nodes links)) 0.85 30)
    | .semantic_ai => ids.map (semRawOf nodes)
    | .cross_follow_ratio => ids.map (crossFollowRatioOf nodes links)
    | .posts_count => ids.map (fun nid => lg (max 1.0 (postsOf nodes emap nid)))
    | .comments_count => ids.map (fun nid => lg (max 1.0 (commentsOf nodes emap nid)))
    | .likes_count => ids.map (fun nid => lg (max 1.0 (likesOf nodes emap nid)))
    | .reposts_count => ids.map (fun nid => lg (max 1.0 (repostsOf nodes emap nid)))

/-- `ind_norm = {k: _minmax(v) for k, v in ind_raw.items()}`. -/
def indNormOf (nodes : List (Option QNode)) (links : List (Option RawLink))
    (emap : PyStr → Option ERec) (lg : ℚ → ℚ) (nm : IndName) : List ℚ :=
  _minmax (indRawOf nodes links emap lg nm)

/-- `statistics.pvariance`: population variance (the radicand of `pstdev`). -/
def pvarianceOf (vals : List ℚ) : ℚ :=
  (vals.map (fun x => (x - vals.sum / (vals.length : ℚ)) ^ 2)).sum / (vals.length : ℚ)

/-- The coefficient-of-variation loop body: `sd/avg` guarded by `avg > 1e-9`,
with `avg = fmean(vals) if vals else 0.0` and
`sd = pstdev(vals) if len(vals) > 1 else 0.0`.  `sq` is the `math.sqrt`
primitive inside `pstdev`. -/
def cvsOf (nodes : List (Option QNode)) (links : List (Option RawLink))
    (emap : PyStr → Option ERec) (lg sq : ℚ → ℚ) (nm : IndName) : ℚ :=
  let vals := indNormOf nodes links emap lg nm
  let avg := if vals = [] then (0 : ℚ) else vals.sum / (vals.length : ℚ)
  let sd := if 1 < vals.length then sq (pvarianceOf vals) else 0
  if 1e-9 < avg then sd / avg else 0

/-- `total_cv = sum(cvs.values())`. -/
def totalCvOf (nodes : List (Option QNode)) (links : List (Option RawLink))
    (emap : PyStr → Option ERec) (lg sq : ℚ → ℚ) : ℚ :=
  (ind_names.map (cvsOf nodes links emap lg sq)).sum

/-- The `k_weight` dict: uniform fallback when `total_cv ≤ 1e-9`, else CV shares. -/
def kWeightOf (nodes : List (Option QNode)) (links : List (Option RawLink))
    (emap : PyStr → Option ERec) (lg sq : ℚ → ℚ) (nm : IndName) : ℚ :=
  if totalCvOf nodes links emap lg sq ≤ 1e-9 then 1 / (ind_names.length : ℚ)
  else cvsOf nodes links emap lg sq nm / totalCvOf nodes links emap lg sq

/-- The `deltas` list, generic in the normalized indicator table: all
node×indicator deviations `|1 - x|` from the all-ones reference sequence,
indicator-major as in the source loop. -/
def graDeltas (ind : IndName → List ℚ) : List ℚ :=
  (ind_names.map (fun nm => (ind nm).map (fun x => |1 - x|))).flatten

/-- `delta_min = min(deltas) if deltas else 0.0`. -/
def graDeltaMin (ind : IndName → List ℚ) : ℚ :=
  if graDeltas ind = [] then 0 else pyMin (graDeltas ind)

/-- `delta_max = max(deltas) if deltas else 1.0`, floored at `1e-9` to `1.0`. -/
def graDeltaMax (ind : IndName → List ℚ) : ℚ :=
  if (if graDeltas ind = [] then 1 else pyMax (graDeltas ind)) ≤ 1e-9 then 1
  else (if graDeltas ind = [] then 1 else pyMax (graDeltas ind))

/-- Node `i`'s grey relation score over a normalized indicator table and a
weight table: the weighted sum over indicators of
`(delta_min + rho*delta_max) / (delta + rho*delta_max)`.  This is the exact
scoring loop of `compute_quanzhong_metrics`; the pipeline instantiates `kw`
with the CV weights and `ind` with the normalized indicators. -/
def graScore (kw : IndName → ℚ) (ind : IndName → List ℚ) (rho : ℚ) (i : ℕ) : ℚ :=
  (ind_names.map (fun nm =>
    kw nm * ((graDeltaMin ind + rho * graDeltaMax ind) /
      (|1 - (ind nm).getD i 0| + rho * graDeltaMax ind)))).sum

/-- The `deltas` list of the pipeline. -/
def deltasOf (nodes : List (Option QNode)) (links : List (Option RawLink))
    (emap : PyStr → Option ERec) (lg : ℚ → ℚ) : List ℚ :=
  graDeltas (indNormOf nodes links emap lg)

/-- Node `i`'s grey relation score (`gamma_sum`) in the pipeline. -/
def greyRelationAt (nodes : List (Option QNode)) (links : List (Option RawLink))
    (emap : PyStr → Option ERec) (rho : ℚ) (lg sq : ℚ → ℚ) (i : ℕ) : ℚ :=
  graScore (kWeightOf nodes links emap lg sq) (indNormOf nodes links emap lg) rho i

/-- `weighted_degree_norm = _minmax([wd[nid] for nid in node_ids])`. -/
def wdNormListOf (nodes : List (Option QNode)) (links : List (Option RawLink)) :
    List ℚ :=
  _minmax ((nodeIdsOf nodes).map (weightedDegreeOf nodes links))

/-- `wd_norm_map[nid]` for the `i`-th node id. -/
def wdNormAt (nodes : List (Option QNode)) (links : List (Option RawLink))
    (i : ℕ) : ℚ :=
  (wdNormListOf nodes links).getD i 0

/-- `final_score = 0.75 * gamma_sum + 0.25 * wd_norm_map[nid]`. -/
def finalScoreAt (nodes : List (Option QNode)) (links : List (Option RawLink))
    (emap : PyStr → Option ERec) (rho : ℚ) (lg sq : ℚ → ℚ) (i : ℕ) : ℚ :=
  0.75 * greyRelationAt nodes links emap rho lg sq i + 0.25 * wdNormAt nodes links i

/-- One node's `node_metrics` record (rounded exactly as in the source; the
`int(...)` casts of float degrees and counters are truncations). -/
structure Metrics where
  grey_relation : ℚ
  association_weight : ℚ
  association_weight_norm : ℚ
  semantic_ai : ℚ
  cross_follow_count : ℤ
  cross_follow_ratio : ℚ
  posts_count : ℤ
  comments_count : ℤ
  likes_count : ℤ
  reposts_count : ℤ
  pagerank : ℚ
  in_degree : ℤ
  out_degree : ℤ
  quanzhong_score : ℚ
deriving DecidableEq

/-- The metrics record computed for the `i`-th node id. -/
def metricsAt (nodes : List (Option QNode)) (links : List (Option RawLink))
    (emap : PyStr → Option ERec) (rho : ℚ) (lg sq : ℚ → ℚ) (i : ℕ)
    (nid : PyStr) : Metrics :=
  { grey_relation := pyRound (greyRelationAt nodes links emap rho lg sq i) 6
    association_weight := pyRound (weightedDegreeOf nodes links nid) 6
    association_weight_norm := pyRound (wdNormAt nodes links i) 6
    semantic_ai := pyRound (semRawOf nodes nid) 6
    cross_follow_count := reciprocalCountOf nodes links nid
    cross_follow_ratio := pyRound (crossFollowRatioOf nodes links nid) 6
    posts_count := ratTrunc (postsOf nodes emap nid)
    comments_count := ratTrunc (commentsOf nodes emap nid)
    likes_count := ratTrunc (likesOf nodes emap nid)
    reposts_count := ratTrunc (repostsOf nodes emap nid)
    pagerank := pyRound (_pagerank (nodeIdsOf nodes) (outMapOf (link_pairs nodes links)) 0.85 30 nid) 8
    in_degree := ((inMapOf (link_pairs nodes links) nid).card : ℤ)
    out_degree := ((outMapOf (link_pairs nodes links) nid).card : ℤ)
    quanzhong_score := pyRound (finalScoreAt nodes links emap rho lg sq i) 6 }

/-- The `node_metrics` dict of `compute_quanzhong_metrics` (keys written in the
`enumerate(node_ids)` loop, last occurrence winning as for a Python dict). -/
def nodeMetricsOf (nodes : List (Option QNode)) (links : List (Option RawLink))
    (emap : PyStr → Option ERec) (rho : ℚ) (lg sq : ℚ → ℚ) (nid : PyStr) :
    Option Metrics :=
  ((((nodeIdsOf nodes).enum.filterMap
      (fun p => if p.2 = nid then some p.1 else Option.none)).getLast?).map
    (fun i => metricsAt nodes links emap rho lg sq i nid))

/-- A decimal float literal body `digits[.digits]`, `.digits` or `digits.`
(exponent and inf/nan forms, unused by this repository's data, are not modeled). -/
def decLit? (cs : List Char) : Option ℚ :=
  let d1 := cs.takeWhile Char.isDigit
  let r1 := cs.dropWhile Char.isDigit
  match r1 with
  | [] => if d1 = [] then Option.none else some ((digitsVal d1 : ℚ))
  | '.' :: r2 =>
    let d2 := r2.takeWhile Char.isDigit
    let r3 := r2.dropWhile Char.isDigit
    if r3 = [] ∧ ¬(d1 = [] ∧ d2 = []) then
      some ((digitsVal d1 : ℚ) + (digitsVal d2 : ℚ) / 10 ^ d2.length)
    else Option.none
  | _ => Option.none

/-- `float(s)` on a Python string (decimal forms). -/
def strFloat? (s : PyStr) : Option ℚ :=
  match pyStrip s with
  | '+' :: r => decLit? r
  | '-' :: r => (decLit? r).map Neg.neg
  | r => decLit? r

/-- `float(v)`: `none` when Python would raise. -/
def pyFloat? (v : PyVal) : Option ℚ :=
  match v with
  | .int n => some ((n : ℚ))
  | .str s => strFloat? s
  | .vnone => Option.none

/-- The raw-link weight parse of `build_layers`: `lk.get("weight", 1.0)`, float
coercion with fallback 1.0, non-positive values replaced by 1.0. -/
def blWeight (lk : RawLink) : ℚ :=
  match lk.weight with
  | Option.none => 1.0
  | some v =>
    match pyFloat? v with
    | Option.none => 1.0
    | some w => if w ≤ 0 then 1.0 else w

/-- The `weighted_degree` dict of `build_layers`: both endpoints of every
accepted raw link accumulate its parsed weight (one increment per raw link). -/
def blWeightedDegree (nodes : List (Option QNode)) (links : List (Option RawLink)) :
    PyStr → ℚ :=
  links.foldl (fun wd olk =>
    match olk with
    | Option.none => wd
    | some lk =>
      match acceptLink nodes (some lk) with
      | Option.none => wd
      | some p =>
        let w := blWeight lk
        let wd1 := Function.update wd p.1 (wd p.1 + w)
        Function.update wd1 p.2 (wd1 p.2 + w)) (fun _ => 0)

/-- The `reciprocal_count` of `build_layers`, computed after adjacency is built:
`for t in out_map[s]: if s in out_map[t]` counts each out-neighbor set member
once, i.e. the cardinality of the reciprocated subset. -/
def blReciprocalCount (nodes : List (Option QNode)) (links : List (Option RawLink))
    (s : PyStr) : ℤ :=
  let out := outMapOf (link_pairs nodes links)
  (((out s).filter (fun t => s ∈ out t)).card : ℤ)

/-- One ranking row built by `quanzhong_rank.main` (the fields feeding the sort
key and identity; the remaining CSV columns are not consulted by the ordering). -/
structure Row where
  id : PyStr
  name : PyStr
  handle : PyStr
  quanzhong_score : ℚ
  grey_relation : ℚ
  association_weight : ℚ
deriving DecidableEq

instance : Inhabited Row :=
  ⟨{ id := [], name := [], handle := [], quanzhong_score := 0, grey_relation := 0,
     association_weight := 0 }⟩

/-- The `rows` list of `quanzhong_rank.main`: one row per node with a nonempty
resolved id, scores looked up in `node_metrics` with default 0.0. -/
def buildRows (nodes : List QNode) (nm : PyStr → Option Metrics) : List Row :=
  nodes.filterMap (fun node =>
    let nid := nodeIdOf node
    if nid = [] then Option.none
    else
      some { id := nid
             name := truthyOr node.name nid
             handle := truthyOr node.handle nid
             quanzhong_score := ((nm nid).map (·.quanzhong_score)).getD 0.0
             grey_relation := ((nm nid).map (·.grey_relation)).getD 0.0
             association_weight := ((nm nid).map (·.association_weight)).getD 0.0 })

/-- The sort key of `quanzhong_rank.main`: descending composite score, then
descending grey relation, then descending association weight, then ascending
lowercased handle. -/
def sortKey (r : Row) : ℚ × ℚ × ℚ × PyStr :=
  (-r.quanzhong_score, -r.grey_relation, -r.association_weight, pyLower r.handle)

/-- Concrete two-node graph used to exhibit duplicate-raw-link behavior:
nodes `a`, `b`; raw links `a→b`, `a→b` (duplicate), `b→a`. -/
def nodesC1 : List (Option QNode) :=
  [some { id := some ['a'] }, some { id := some ['b'] }]

/-- A plain string-endpoint raw link. -/
def mkLink (s t : PyStr) : Option RawLink :=
  some { source := .str s, target := .str t }

def linksC1 : List (Option RawLink) :=
  [mkLink ['a'] ['b'], mkLink ['a'] ['b'], mkLink ['b'] ['a']]

/-- `linksC1` with the duplicate raw link removed. -/
def linksC1d : List (Option RawLink) :=
  [mkLink ['a'] ['b'], mkLink ['b'] ['a']]

/-- Concrete two-node tie graph for the ranking order: distinct ids, handles
equal up to letter case, no links, no engagement.  The log/sqrt parameters are
instantiated with constant-zero functions, which agree with `math.log10` and
`math.sqrt` at every point this run evaluates them (`log10(1)` and `sqrt(0)`). -/
def nodesC5raw : List QNode :=
  [{ id := some ['n', '1'], handle := some "Bob".toList },
   { id := some ['n', '2'], handle := some "bOB".toList }]

def rowsC5 : List Row :=
  buildRows nodesC5raw
    (nodeMetricsOf (nodesC5raw.map some) [] (fun _ => Option.none) (1/2)
      (fun _ => 0) (fun _ => 0))

theorem foldl_min_le_init (xs : List ℚ) (a : ℚ) : xs.foldl min a ≤ a := by
  induction xs generalizing a with
  | nil => simp
  | cons x xs ih => exact le_trans (ih (min a x)) (min_le_left a x)

theorem foldl_min_le_mem (xs : List ℚ) (a : ℚ) (x : ℚ) (hx : x ∈ xs) :
    xs.foldl min a ≤ x := by
  induction xs generalizing a with
  | nil => simp at hx
  | cons y ys ih =>
    rcases List.mem_cons.mp hx with h | h
    · subst h
      exact le_trans (foldl_min_le_init ys (min a x)) (min_le_right a x)
    · exact ih (min a y) h

theorem foldl_min_mem (xs : List ℚ) (a : ℚ) :
    xs.foldl min a = a ∨ xs.foldl min a ∈ xs := by
  induction xs generalizing a with
  | nil => left; rfl
  | cons x xs ih =>
    rcases ih (min a x) with h | h
    · rcases min_choice a x with hc | hc
      · left
        simpa [hc] using h
      · right
        simp only [List.foldl]
        rw [h, hc]
        exact List.mem_cons_self x xs
    · right
      exact List.mem_cons_of_mem x h

theorem foldl_max_ge_init (xs : List ℚ) (a : ℚ) : a ≤ xs.foldl max a := by
  induction xs generalizing a with
  | nil => simp
  | cons x xs ih => exact le_trans (le_max_left a x) (ih (max a x))

theorem foldl_max_ge_mem (xs : List ℚ) (a : ℚ) (x : ℚ) (hx : x ∈ xs) :
    x ≤ xs.foldl max a := by
  induction xs generalizing a with
  | nil => simp at hx
  | cons y ys ih =>
    rcases List.mem_cons.mp hx with h | h
    · subst h
      exact le_trans (le_max_right a x) (foldl_max_ge_init ys (max a x))
    · exact ih (max a y) h

theorem foldl_max_mem (xs : List ℚ) (a : ℚ) :
    xs.foldl max a = a ∨ xs.foldl max a ∈ xs := by
  induction xs generalizing a with
  | nil => left; rfl
  | cons x xs ih =>
    rcases ih (max a x) with h | h
    · rcases max_choice a x with hc | hc
      · left
        simpa [hc] using h
      · right
        simp only [List.foldl]
        rw [h, hc]
        exact List.mem_cons_self x xs
    · right
      exact List.mem_cons_of_mem x h

theorem pyMin_mem (l : List ℚ) (h : l ≠ []) : pyMin l ∈ l := by
  match l with
  | [] => exact absurd rfl h
  | x :: xs =>
    simp only [pyMin]
    rcases foldl_min_mem xs x with h1 | h1
    · rw [h1]; exact List.mem_cons_self x xs
    · exact List.mem_cons_of_mem x h1

theorem pyMin_le (l : List ℚ) (x : ℚ) (hx : x ∈ l) : pyMin l ≤ x := by
  match l with
  | [] => simp at hx
  | y :: ys =>
    simp only [pyMin]
    rcases List.mem_cons.mp hx with h | h
    · subst h; exact foldl_min_le_init ys x
    · exact foldl_min_le_mem ys y x h

theorem pyMax_mem (l : List ℚ) (h : l ≠ []) : pyMax l ∈ l := by
  match l with
  | [] => exact absurd rfl h
  | x :: xs =>
    simp only [pyMax]
    rcases foldl_max_mem xs x with h1 | h1
    · rw [h1]; exact List.mem_cons_self x xs
    · exact List.mem_cons_of_mem x h1

theorem pyMax_ge (l : List ℚ) (x : ℚ) (hx : x ∈ l) : x ≤ pyMax l := by
  match l with
  | [] => simp at hx
  | y :: ys =>
    simp only [pyMax]
    rcases List.mem_cons.mp hx with h | h
    · subst h; exact foldl_max_ge_init ys x
    · exact foldl_max_ge_mem ys y x h

theorem _minmax_length (l : List ℚ) : (_minmax l).length = l.length := by
  unfold _minmax
  by_cases h : l = []
  · simp [h]
  · by_cases h2 : pyMax l ≤ pyMin l <;> simp [h, h2]

theorem _minmax_mem_bounds (l : List ℚ) (x : ℚ) (hx : x ∈ _minmax l) :
    0 ≤ x ∧ x ≤ 1 := by
  unfold _minmax at hx
  by_cases h : l = []
  · simp [h] at hx
  · simp only [if_neg h] at hx
    by_cases h2 : pyMax l ≤ pyMin l
    · simp only [if_pos h2] at hx
      rcases List.mem_map.mp hx with ⟨v, _, hv⟩
      constructor
      · rw [← hv]
      · rw [← hv]
        norm_num
    · simp only [if_neg h2] at hx
      rcases List.mem_map.mp hx with ⟨v, hvl, hv⟩
      have hlo := pyMin_le l v hvl
      have hhi := pyMax_ge l v hvl
      have hpos : 0 < pyMax l - pyMin l := by linarith [not_le.mp h2]
      constructor
      · rw [← hv]
        exact div_nonneg (by linarith) (le_of_lt hpos)
      · rw [← hv]
        rw [div_le_one hpos]
        linarith

theorem _minmax_const_branch (l : List ℚ) (h : l ≠ []) (h2 : pyMax l ≤ pyMin l)
    (x : ℚ) (hx : x ∈ _minmax l) : x = 0 := by
  unfold _minmax at hx
  simp only [if_neg h, if_pos h2] at hx
  rcases List.mem_map.mp hx with ⟨v, _, hv⟩
  exact hv.symm

theorem _minmax_scale_branch (l : List ℚ) (h : l ≠ []) (h2 : pyMin l < pyMax l) :
    _minmax l = l.map (fun v => (v - pyMin l) / (pyMax l - pyMin l)) := by
  unfold _minmax
  simp only [if_neg h, if_neg (not_le.mpr h2)]

theorem _minmax_zero_mem (l : List ℚ) (h : l ≠ []) (h2 : pyMin l < pyMax l) :
    (0 : ℚ) ∈ _minmax l := by
  rw [_minmax_scale_branch l h h2]
  refine List.mem_map.mpr ⟨pyMin l, pyMin_mem l h, ?_⟩
  simp

theorem _minmax_one_mem (l : List ℚ) (h : l ≠ []) (h2 : pyMin l < pyMax l) :
    (1 : ℚ) ∈ _minmax l := by
  rw [_minmax_scale_branch l h h2]
  refine List.mem_map.mpr ⟨pyMax l, pyMax_mem l h, ?_⟩
  have : pyMax l - pyMin l ≠ 0 := by linarith
  field_simp

/-- C7: the min-max normalizer preserves length, maps the empty list to the
empty list, maps every element to 0 when `max ≤ min`, and otherwise scales each
element to `(v - min)/(max - min)`, so that for a nonempty non-constant input
the outputs cover 0 (the minimum), 1 (the maximum), and lie in `[0, 1]`. -/
theorem C7_minmax_contract (l : List ℚ) :
    (_minmax l).length = l.length ∧
    _minmax ([] : List ℚ) = [] ∧
    (l ≠ [] → pyMax l ≤ pyMin l → ∀ x ∈ _minmax l, x = 0) ∧
    (l ≠ [] → pyMin l < pyMax l →
      _minmax l = l.map (fun v => (v - pyMin l) / (pyMax l - pyMin l)) ∧
      (0 : ℚ) ∈ _minmax l ∧ (1 : ℚ) ∈ _minmax l ∧
      ∀ x ∈ _minmax l, 0 ≤ x ∧ x ≤ 1) := by
  refine ⟨_minmax_length l, rfl, ?_, ?_⟩
  · intro h h2 x hx
    exact _minmax_const_branch l h h2 x hx
  · intro h h2
    exact ⟨_minmax_scale_branch l h h2, _minmax_zero_mem l h h2,
      _minmax_one_mem l h h2, fun x hx => _minmax_mem_bounds l x hx⟩

/-- Witness for C7 at the concrete input `[1, 3]` (and the degenerate `[2, 2]`). -/
theorem C7_minmax_contract_witness :
    ([1, 3] : List ℚ) ≠ [] ∧ pyMin [(1:ℚ), 3] < pyMax [(1:ℚ), 3] ∧
    (0 : ℚ) ∈ _minmax [1, 3] ∧ (1 : ℚ) ∈ _minmax [1, 3] ∧
    (∀ x ∈ _minmax [(2:ℚ), 2], x = 0) := by
  have h1 := (C7_minmax_contract [1, 3]).2.2.2 (by decide) (by decide)
  have h2 := (C7_minmax_contract [2, 2]).2.2.1 (by decide) (by decide)
  exact ⟨by decide, by decide, h1.2.1, h1.2.2.1, h2⟩

theorem char_le_iff (c d : Char) : c ≤ d ↔ c.toNat ≤ d.toNat := by
  rw [Char.le_def, UInt32.le_def, BitVec.le_def]
  exact Iff.rfl

theorem char_isDigit_iff (c : Char) : c.isDigit = true ↔ 48 ≤ c.toNat ∧ c.toNat ≤ 57 := by
  simp [Char.isDigit, ge_iff_le, UInt32.le_def, BitVec.le_def, Char.toNat, UInt32.toNat]

theorem char_ofNat_toNat (n : ℕ) (h1 : 65 ≤ n) (h2 : n ≤ 90) :
    (Char.ofNat n).toNat = n := by
  have hv : n.isValidChar := Or.inl (by omega)
  simp [Char.ofNat, hv, Char.ofNatAux, Char.toNat, UInt32.toNat, UInt32.ofNatCore]

theorem pyUpperCh_isDigit (c : Char) : (pyUpperCh c).isDigit = c.isDigit := by
  unfold pyUpperCh
  split
  · rename_i h
    have h1 : 97 ≤ c.toNat := (char_le_iff 'a' c).mp h.1
    have h2 : c.toNat ≤ 122 := (char_le_iff c 'z').mp h.2
    have hof : (Char.ofNat (c.toNat - 32)).toNat = c.toNat - 32 :=
      char_ofNat_toNat _ (by omega) (by omega)
    have hl : (Char.ofNat (c.toNat - 32)).isDigit = false := by
      rw [Bool.eq_false_iff]
      intro hd
      rw [char_isDigit_iff, hof] at hd
      omega
    have hr : c.isDigit = false := by
      rw [Bool.eq_false_iff]
      intro hd
      rw [char_isDigit_iff] at hd
      omega
    rw [hl, hr]
  · rfl

theorem pyWs_of_digit (c : Char) (h : c.isDigit = true) : pyWs c = false := by
  rw [char_isDigit_iff] at h
  simp only [pyWs, decide_eq_false_iff_not]
  rintro (rfl | rfl | rfl | rfl | rfl | rfl) <;> exact absurd h (by decide)

theorem dropWhile_eq_self_of_all {α : Type} (p : α → Bool) (l : List α)
    (h : ∀ c ∈ l, p c = false) : l.dropWhile p = l := by
  cases l with
  | nil => rfl
  | cons a as => simp [List.dropWhile, h a (List.mem_cons_self a as)]

theorem pyStrip_of_no_ws (s : PyStr) (h : ∀ c ∈ s, pyWs c = false) :
    pyStrip s = s := by
  unfold pyStrip
  rw [dropWhile_eq_self_of_all pyWs s h]
  rw [dropWhile_eq_self_of_all pyWs s.reverse (fun c hc => h c (List.mem_reverse.mp hc))]
  exact List.reverse_reverse s

theorem mem_pyStrip (s : PyStr) (x : Char) (hx : x ∈ pyStrip s) : x ∈ s := by
  unfold pyStrip at hx
  rw [List.mem_reverse] at hx
  have h1 := List.Sublist.mem hx (List.dropWhile_sublist pyWs)
  rw [List.mem_reverse] at h1
  exact List.Sublist.mem h1 (List.dropWhile_sublist pyWs)

theorem okTail_of_digits (cs : List Char) (h : ∀ c ∈ cs, c.isDigit = true) :
    okTail cs = true := by
  induction cs with
  | nil => rfl
  | cons c rest ih =>
    have hc := h c (List.mem_cons_self c rest)
    have hne : ¬(c = '_') := by
      intro he
      subst he
      exact absurd hc (by decide)
    unfold okTail
    simp [hne, hc, ih (fun d hd => h d (List.mem_cons_of_mem c hd))]

theorem okDigitsU_of_digits (cs : List Char) (hne : cs ≠ [])
    (h : ∀ c ∈ cs, c.isDigit = true) : okDigitsU cs = true := by
  cases cs with
  | nil => exact absurd rfl hne
  | cons c rest =>
    simp [okDigitsU, h c (List.mem_cons_self c rest),
      okTail_of_digits rest (fun d hd => h d (List.mem_cons_of_mem c hd))]

theorem okDigitsU_of_no_digit (cs : List Char) (h : ∀ c ∈ cs, c.isDigit = false) :
    okDigitsU cs = false := by
  cases cs with
  | nil => rfl
  | cons c rest => simp [okDigitsU, h c (List.mem_cons_self c rest)]

theorem pyIntLit?_of_digits (c : Char) (cs : List Char)
    (h : ∀ d ∈ c :: cs, d.isDigit = true) :
    pyIntLit? (c :: cs) = some ((digitsVal (c :: cs) : ℤ)) := by
  have hstrip : pyStrip (c :: cs) = c :: cs :=
    pyStrip_of_no_ws _ (fun d hd => pyWs_of_digit d (h d hd))
  have hc := h c (List.mem_cons_self c cs)
  have hplus : ¬(c = '+') := by
    intro he; subst he; exact absurd hc (by decide)
  have hminus : ¬(c = '-') := by
    intro he; subst he; exact absurd hc (by decide)
  have hok := okDigitsU_of_digits (c :: cs) (by simp) h
  have hfil : (c :: cs).filter Char.isDigit = c :: cs := List.filter_eq_self.mpr h
  simp [pyIntLit?, hstrip, hplus, hminus, hok, hfil]

theorem pyIntLit?_of_no_digit (s : PyStr) (h : ∀ c ∈ s, c.isDigit = false) :
    pyIntLit? s = Option.none := by
  have hsub : ∀ c ∈ pyStrip s, c.isDigit = false := fun c hc => h c (mem_pyStrip s c hc)
  unfold pyIntLit?
  cases hps : pyStrip s with
  | nil => rfl
  | cons c r =>
    have hr : ∀ d ∈ r, d.isDigit = false := fun d hd => by
      refine hsub d ?_
      rw [hps]
      exact List.mem_cons_of_mem c hd
    have hcr : ∀ d ∈ c :: r, d.isDigit = false := by
      intro d hd
      refine hsub d ?_
      rw [hps]
      exact hd
    have h1 := okDigitsU_of_no_digit r hr
    have h2 := okDigitsU_of_no_digit (c :: r) hcr
    by_cases hp : c = '+'
    · simp [hp, h1]
    · by_cases hm : c = '-'
      · simp [hp, hm, h1]
      · simp [hp, hm, h2]

theorem takeWhile_eq_nil_of_no_digit (text : PyStr) (h : ∀ c ∈ text, c.isDigit = false) :
    text.takeWhile Char.isDigit = [] := by
  cases text with
  | nil => rfl
  | cons c cs => simp [List.takeWhile, h c (List.mem_cons_self c cs)]

theorem matchNum_of_no_digit (text : PyStr) (h : ∀ c ∈ text, c.isDigit = false) :
    matchNum text = Option.none := by
  have ht := takeWhile_eq_nil_of_no_digit text h
  unfold matchNum
  rw [ht]
  rfl

theorem toIntText_of_no_digit (text : PyStr) (h : ∀ c ∈ text, c.isDigit = false) :
    toIntText text = 0 := by
  unfold toIntText
  rw [matchNum_of_no_digit text h]
  have : text.filter Char.isDigit = [] := by
    rw [List.filter_eq_nil_iff]
    intro c hc
    simp [h c hc]
  rw [this]
  rfl

theorem if_empty_self (s : PyStr) : (if s = [] then ([] : PyStr) else s) = s := by
  by_cases h : s = [] <;> simp [h]

theorem to_int_of_digits (c : Char) (cs : List Char)
    (h : ∀ d ∈ c :: cs, d.isDigit = true) :
    to_int (.str (c :: cs)) = (digitsVal (c :: cs) : ℤ) := by
  simp [to_int, pyIntLit?_of_digits c cs h]

theorem to_int_str_fallback (s : PyStr) (hlit : pyIntLit? s = Option.none) :
    to_int (.str s) =
      toIntText (((pyStrip s).map pyUpperCh).filter (fun c => ¬ (c = ','))) := by
  simp only [to_int, hlit, if_empty_self]

theorem to_int_of_no_digit (s : PyStr) (h : ∀ c ∈ s, c.isDigit = false) :
    to_int (.str s) = 0 := by
  rw [to_int_str_fallback s (pyIntLit?_of_no_digit s h)]
  refine toIntText_of_no_digit _ ?_
  intro c hc
  rcases List.mem_filter.mp hc with ⟨hc1, _⟩
  rcases List.mem_map.mp hc1 with ⟨c0, hc0, hup⟩
  rw [← hup, pyUpperCh_isDigit]
  exact h c0 (mem_pyStrip _ _ hc0)

theorem ratFloor_eq_floor (q : ℚ) : ratFloor q = ⌊q⌋ := Eq.symm Rat.floor_def

theorem ratTrunc_of_nonneg (q : ℚ) (h : 0 ≤ q) : ratTrunc q = ⌊q⌋ := by
  unfold ratTrunc
  rw [if_neg (not_lt.mpr h), ratFloor_eq_floor]

theorem to_int_ex_12K : to_int (.str ("12K".toList)) = 12000 := by
  rw [to_int_str_fallback _ (by decide)]
  have h2 : ((pyStrip ("12K".toList)).map pyUpperCh).filter (fun c => ¬ (c = ',')) =
      "12K".toList := by decide
  rw [h2]
  have h3 : matchNum ("12K".toList) = some ((12 : ℚ), some 'K') := by
    simp +decide [matchNum, digitsVal]
  unfold toIntText
  rw [h3]
  show ratTrunc ((12 : ℚ) * suffixScale (some 'K')) = 12000
  rw [ratTrunc_of_nonneg _ (by norm_num [suffixScale])]
  norm_num [suffixScale]

theorem to_int_ex_34M : to_int (.str ("3.4M".toList)) = 3400000 := by
  rw [to_int_str_fallback _ (by decide)]
  have h2 : ((pyStrip ("3.4M".toList)).map pyUpperCh).filter (fun c => ¬ (c = ',')) =
      "3.4M".toList := by decide
  rw [h2]
  have h3 : matchNum ("3.4M".toList) = some ((3 : ℚ) + 4 / 10 ^ 1, some 'M') := by
    simp +decide [matchNum, digitsVal]
  unfold toIntText
  rw [h3]
  show ratTrunc (((3 : ℚ) + 4 / 10 ^ 1) * suffixScale (some 'M')) = 3400000
  rw [ratTrunc_of_nonneg _ (by norm_num [suffixScale])]
  norm_num [suffixScale]

theorem to_int_ex_1B : to_int (.str ("1B".toList)) = 1000000000 := by
  rw [to_int_str_fallback _ (by decide)]
  have h2 : ((pyStrip ("1B".toList)).map pyUpperCh).filter (fun c => ¬ (c = ',')) =
      "1B".toList := by decide
  rw [h2]
  have h3 : matchNum ("1B".toList) = some ((1 : ℚ), some 'B') := by
    simp +decide [matchNum, digitsVal]
  unfold toIntText
  rw [h3]
  show ratTrunc ((1 : ℚ) * suffixScale (some 'B')) = 1000000000
  rw [ratTrunc_of_nonneg _ (by norm_num [suffixScale])]
  norm_num [suffixScale]

/-- C9: lenient numeric coercion is total and matches the documented cases: the
suffixes `K`, `M`, `B` scale the parsed decimal by 10³/10⁶/10⁹ (illustrated at
`"12K"`, `"3.4M"`, `"1B"` and stated in general via the pattern matcher), a
plain digit string yields its decimal value, an input with no digit characters
(including `None`) yields the safe default 0, and every `PyVal` input is mapped
to an integer (the embedding `to_int` is a total function by construction). -/
theorem C9_to_int_total :
    to_int (.str ("12K".toList)) = 12000 ∧
    to_int (.str ("3.4M".toList)) = 3400000 ∧
    to_int (.str ("1B".toList)) = 1000000000 ∧
    to_int .vnone = 0 ∧
    (∀ s : PyStr, (∀ c ∈ s, c.isDigit = false) → to_int (.str s) = 0) ∧
    (∀ (c : Char) (cs : List Char), (∀ d ∈ c :: cs, d.isDigit = true) →
      to_int (.str (c :: cs)) = (digitsVal (c :: cs) : ℤ)) ∧
    (∀ (s : PyStr) (q : ℚ) (sfx : Option Char), pyIntLit? s = Option.none →
      matchNum (((pyStrip s).map pyUpperCh).filter (fun c => ¬ (c = ','))) =
        some (q, sfx) →
      to_int (.str s) = ratTrunc (q * suffixScale sfx)) := by
  refine ⟨to_int_ex_12K, to_int_ex_34M, to_int_ex_1B, by decide, to_int_of_no_digit,
    to_int_of_digits, ?_⟩
  intro s q sfx hlit hmn
  rw [to_int_str_fallback s hlit]
  unfold toIntText
  rw [hmn]

/-- Witness for C9: the digit-free input `"xy"` coerces to 0 and the plain digit
string `"157"` coerces to 157, by the general clauses of the theorem. -/
theorem C9_to_int_total_witness :
    to_int (.str ['x', 'y']) = 0 ∧ to_int (.str ['1', '5', '7']) = 157 := by
  have h := C9_to_int_total
  constructor
  · exact h.2.2.2.2.1 ['x', 'y'] (by decide)
  · have h2 := h.2.2.2.2.2.1 '1' ['5', '7'] (by decide)
    rw [h2]
    decide

theorem foldl_update_add_ge (l : List PyStr) (m : PyStr → ℚ) (share : ℚ)
    (hs : 0 ≤ share) (x : PyStr) :
    m x ≤ (l.foldl (fun m dst => Function.update m dst (m dst + share)) m) x := by
  induction l generalizing m with
  | nil => exact le_refl _
  | cons d l ih =>
    refine le_trans ?_ (ih (Function.update m d (m d + share)))
    rw [Function.update_apply]
    by_cases hxd : x = d
    · simp only [if_pos hxd]
      rw [hxd]
      linarith
    · simp only [if_neg hxd]
      exact le_refl _

theorem prStepOne_ge (ids : List PyStr) (out : PyStr → Finset PyStr) (d : ℚ) (n : ℕ)
    (pr : PyStr → ℚ) (hd : 0 ≤ d) (hpr : ∀ y, 0 ≤ pr y) (nxt : PyStr → ℚ)
    (src : PyStr) (x : PyStr) : nxt x ≤ prStepOne ids out d n pr nxt src x := by
  unfold prStepOne
  by_cases hne : (out src).Nonempty
  · simp only [if_pos hne]
    have hs : 0 ≤ d * pr src / ((out src).card : ℚ) :=
      div_nonneg (mul_nonneg hd (hpr src)) (by positivity)
    show nxt x ≤ if x ∈ out src then nxt x + d * pr src / ((out src).card : ℚ) else nxt x
    by_cases hx : x ∈ out src
    · simp only [if_pos hx]
      linarith
    · simp only [if_neg hx]
      exact le_refl _
  · simp only [if_neg hne]
    exact foldl_update_add_ge ids nxt _
      (div_nonneg (mul_nonneg hd (hpr src)) (by positivity)) x

theorem foldl_prStepOne_ge (srcs ids : List PyStr) (out : PyStr → Finset PyStr)
    (d : ℚ) (n : ℕ) (pr : PyStr → ℚ) (hd : 0 ≤ d) (hpr : ∀ y, 0 ≤ pr y)
    (nxt : PyStr → ℚ) (x : PyStr) :
    nxt x ≤ (srcs.foldl (prStepOne ids out d n pr) nxt) x := by
  induction srcs generalizing nxt with
  | nil => exact le_refl _
  | cons s srcs ih =>
    exact le_trans (prStepOne_ge ids out d n pr hd hpr nxt s x)
      (ih (prStepOne ids out d n pr nxt s))

theorem prIter_ge_base (ids : List PyStr) (out : PyStr → Finset PyStr) (d : ℚ)
    (n : ℕ) (pr : PyStr → ℚ) (hd : 0 ≤ d) (hpr : ∀ y, 0 ≤ pr y) (x : PyStr) :
    (1 - d) / (n : ℚ) ≤ prIter ids out d n pr x := by
  unfold prIter
  exact foldl_prStepOne_ge ids ids out d n pr hd hpr _ x

theorem prIter_nonneg (ids : List PyStr) (out : PyStr → Finset PyStr) (d : ℚ)
    (n : ℕ) (pr : PyStr → ℚ) (hd : 0 ≤ d) (hd1 : d ≤ 1) (hpr : ∀ y, 0 ≤ pr y)
    (x : PyStr) : 0 ≤ prIter ids out d n pr x := by
  refine le_trans ?_ (prIter_ge_base ids out d n pr hd hpr x)
  exact div_nonneg (by linarith) (Nat.cast_nonneg n)

theorem pr_iterate_nonneg (ids : List PyStr) (out : PyStr → Finset PyStr) (d : ℚ)
    (n : ℕ) (hd : 0 ≤ d) (hd1 : d ≤ 1) (k : ℕ) :
    ∀ x, 0 ≤ (prIter ids out d n)^[k] (fun _ => 1 / (n : ℚ)) x := by
  induction k with
  | zero =>
    intro x
    simp only [Function.iterate_zero_apply]
    exact div_nonneg zero_le_one (Nat.cast_nonneg n)
  | succ k ih =>
    intro x
    rw [Function.iterate_succ_apply']
    exact prIter_nonneg ids out d n _ hd hd1 ih x

/-- C4: the PageRank teleport floor.  For every nonempty node list and every
out-adjacency map, every node's value after the 30 default iterations with
damping 0.85 is at least the teleport base `(1 - 0.85)/n`; in particular it is
strictly positive, so a pure sink node never receives a zero rank. -/
theorem C4_pagerank_teleport_floor (ids : List PyStr) (out : PyStr → Finset PyStr)
    (hne : ids ≠ []) (x : PyStr) (_hx : x ∈ ids) :
    (1 - 0.85) / (ids.length : ℚ) ≤ _pagerank ids out 0.85 30 x ∧
    0 < _pagerank ids out 0.85 30 x := by
  have hn : ids.length ≠ 0 := fun h => hne (List.length_eq_zero.mp h)
  have hnpos : 0 < (ids.length : ℚ) := by
    have := Nat.pos_of_ne_zero hn
    exact_mod_cast this
  have hfloor : (1 - (0.85 : ℚ)) / (ids.length : ℚ) ≤ _pagerank ids out 0.85 30 x := by
    unfold _pagerank
    simp only [if_neg hn]
    rw [show (30 : ℕ) = 29 + 1 from rfl, Function.iterate_succ_apply']
    exact prIter_ge_base ids out 0.85 ids.length _ (by norm_num)
      (pr_iterate_nonneg ids out 0.85 ids.length (by norm_num) (by norm_num) 29) x
  refine ⟨hfloor, lt_of_lt_of_le ?_ hfloor⟩
  positivity

/-- Witness for C4: a single isolated node (a pure sink) has rank at least its
teleport floor and strictly positive rank. -/
theorem C4_pagerank_teleport_floor_witness :
    ([(['d'] : PyStr)] : List PyStr) ≠ [] ∧ (['d'] : PyStr) ∈ [(['d'] : PyStr)] ∧
    ((1 - 0.85) / (([(['d'] : PyStr)] : List PyStr).length : ℚ) ≤
        _pagerank [(['d'] : PyStr)] (fun _ => ∅) 0.85 30 ['d'] ∧
      0 < _pagerank [(['d'] : PyStr)] (fun _ => ∅) 0.85 30 ['d']) :=
  ⟨by decide, by decide,
    C4_pagerank_teleport_floor [(['d'] : PyStr)] (fun _ => ∅) (by decide) ['d'] (by decide)⟩

theorem sum_map_const_div {α : Type} (ids : List α) (c : ℚ) :
    ((ids.map (fun _ => c)).sum) = (ids.length : ℚ) * c := by
  induction ids with
  | nil => simp
  | cons a l ih =>
    simp only [List.map_cons, List.sum_cons, List.length_cons, ih]
    push_cast
    ring

theorem sum_map_add_if_mem (ids : List PyStr) (g : PyStr → ℚ) (outs : Finset PyStr)
    (c : ℚ) :
    ((ids.map (fun x => if x ∈ outs then g x + c else g x)).sum)
      = (ids.map g).sum + ((ids.countP (fun x => decide (x ∈ outs))) : ℚ) * c := by
  induction ids with
  | nil => simp
  | cons a l ih =>
    simp only [List.map_cons, List.sum_cons, List.countP_cons, ih]
    by_cases ha : a ∈ outs
    · simp only [if_pos ha, ha, decide_True]
      push_cast
      ring
    · simp only [if_neg ha, ha, decide_False]
      push_cast
      ring

theorem countP_mem_eq_card (ids : List PyStr) (outs : Finset PyStr)
    (hnd : ids.Nodup) (hsub : ∀ y ∈ outs, y ∈ ids) :
    ids.countP (fun x => decide (x ∈ outs)) = outs.card := by
  rw [List.countP_eq_length_filter]
  have hfn : (ids.filter (fun x => decide (x ∈ outs))).Nodup :=
    List.Nodup.filter _ hnd
  rw [← List.toFinset_card_of_nodup hfn]
  congr 1
  ext y
  simp only [List.mem_toFinset, List.mem_filter, decide_eq_true_eq]
  constructor
  · exact fun h => h.2
  · exact fun h => ⟨hsub y h, h⟩

theorem sum_map_update (ids : List PyStr) (hnd : ids.Nodup) (m : PyStr → ℚ)
    (dst : PyStr) (v : ℚ) :
    ((ids.map (Function.update m dst v)).sum)
      = (ids.map m).sum + (if dst ∈ ids then v - m dst else 0) := by
  induction ids with
  | nil => simp
  | cons a l ih =>
    have hna : a ∉ l := (List.nodup_cons.mp hnd).1
    have hndl : l.Nodup := (List.nodup_cons.mp hnd).2
    simp only [List.map_cons, List.sum_cons]
    by_cases had : dst = a
    · subst had
      have h1 : Function.update m dst v dst = v := by
        rw [Function.update_apply, if_pos rfl]
      have h2 : (l.map (Function.update m dst v)).sum = (l.map m).sum := by
        have : l.map (Function.update m dst v) = l.map m := by
          apply List.map_congr_left
          intro x hx
          rw [Function.update_apply, if_neg (fun (he : x = dst) => hna (he ▸ hx))]
        rw [this]
      rw [h1, h2, if_pos (List.mem_cons_self dst l)]
      ring
    · have h1 : Function.update m dst v a = m a := by
        rw [Function.update_apply, if_neg (fun he => had he.symm)]
      rw [h1, ih hndl]
      have hmem : (dst ∈ a :: l) ↔ (dst ∈ l) := by
        simp [List.mem_cons, had]
      by_cases hdl : dst ∈ l
      · rw [if_pos hdl, if_pos (hmem.mpr hdl)]
        ring
      · rw [if_neg hdl, if_neg (fun hc => hdl (hmem.mp hc))]
        ring

theorem foldl_update_add_sum (ids : List PyStr) (hnd : ids.Nodup) (l : List PyStr)
    (m : PyStr → ℚ) (c : ℚ) :
    ((ids.map (l.foldl (fun m dst => Function.update m dst (m dst + c)) m)).sum)
      = (ids.map m).sum + ((l.countP (fun x => decide (x ∈ ids))) : ℚ) * c := by
  induction l generalizing m with
  | nil => simp
  | cons d l ih =>
    simp only [List.foldl_cons, List.countP_cons]
    rw [ih (Function.update m d (m d + c))]
    rw [sum_map_update ids hnd m d (m d + c)]
    by_cases hd : d ∈ ids
    · simp only [if_pos hd, hd, decide_True]
      push_cast
      ring
    · simp only [if_neg hd, hd, decide_False]
      push_cast
      ring

theorem prStepOne_sum (ids : List PyStr) (hnd : ids.Nodup)
    (out : PyStr → Finset PyStr) (d : ℚ) (pr nxt : PyStr → ℚ) (src : PyStr)
    (hsub : ∀ y ∈ out src, y ∈ ids) (hn : ids.length ≠ 0) :
    ((ids.map (prStepOne ids out d ids.length pr nxt src)).sum)
      = (ids.map nxt).sum + d * pr src := by
  unfold prStepOne
  by_cases hne : (out src).Nonempty
  · simp only [if_pos hne]
    rw [sum_map_add_if_mem ids nxt (out src) (d * pr src / ((out src).card : ℚ))]
    rw [countP_mem_eq_card ids (out src) hnd hsub]
    have hcard : ((out src).card : ℚ) ≠ 0 := by
      have := Finset.card_pos.mpr hne
      positivity
    field_simp
  · simp only [if_neg hne]
    rw [foldl_update_add_sum ids hnd ids nxt (d * pr src / (ids.length : ℚ))]
    have hcount : ids.countP (fun x => decide (x ∈ ids)) = ids.length :=
      List.countP_eq_length.mpr (fun a ha => by simp [ha])
    rw [hcount]
    have hlen : ((ids.length : ℕ) : ℚ) ≠ 0 := by
      exact_mod_cast hn
    field_simp

theorem prIter_sum (ids : List PyStr) (hnd : ids.Nodup)
    (out : PyStr → Finset PyStr) (d : ℚ) (pr : PyStr → ℚ)
    (hsub : ∀ s, ∀ y ∈ out s, y ∈ ids) (hn : ids.length ≠ 0) :
    ((ids.map (prIter ids out d ids.length pr)).sum)
      = (1 - d) + d * (ids.map pr).sum := by
  unfold prIter
  have key : ∀ (srcs : List PyStr) (nxt : PyStr → ℚ),
      ((ids.map (srcs.foldl (prStepOne ids out d ids.length pr) nxt)).sum)
        = (ids.map nxt).sum + d * (srcs.map pr).sum := by
    intro srcs
    induction srcs with
    | nil => intro nxt; simp
    | cons s srcs ih =>
      intro nxt
      simp only [List.foldl_cons, List.map_cons, List.sum_cons]
      rw [ih (prStepOne ids out d ids.length pr nxt s)]
      rw [prStepOne_sum ids hnd out d pr nxt s (hsub s) hn]
      ring
  rw [key ids (fun _ => (1 - d) / (ids.length : ℚ))]
  rw [sum_map_const_div ids ((1 - d) / (ids.length : ℚ))]
  have hlen : ((ids.length : ℕ) : ℚ) ≠ 0 := by exact_mod_cast hn
  field_simp

theorem pr_iterate_sum (ids : List PyStr) (hnd : ids.Nodup)
    (out : PyStr → Finset PyStr) (d : ℚ)
    (hsub : ∀ s, ∀ y ∈ out s, y ∈ ids) (hn : ids.length ≠ 0) (k : ℕ) :
    ((ids.map ((prIter ids out d ids.length)^[k] (fun _ => 1 / (ids.length : ℚ)))).sum)
      = 1 := by
  induction k with
  | zero =>
    simp only [Function.iterate_zero_apply]
    rw [sum_map_const_div ids (1 / (ids.length : ℚ))]
    have hlen : ((ids.length : ℕ) : ℚ) ≠ 0 := by exact_mod_cast hn
    field_simp
  | succ k ih =>
    have hstep :
        ids.map ((prIter ids out d ids.length)^[k + 1] (fun _ => 1 / (ids.length : ℚ)))
          = ids.map (prIter ids out d ids.length
              ((prIter ids out d ids.length)^[k] (fun _ => 1 / (ids.length : ℚ)))) := by
      rw [Function.iterate_succ_apply']
    rw [hstep, prIter_sum ids hnd out d _ hsub hn, ih]
    ring

/-- C3 (amended): PageRank mass conservation.  For every nonempty node list
without duplicate ids whose out-neighbors all lie in the list (as holds for
every graph the two modules build), the values after the default 30 iterations
with damping 0.85 sum to exactly 1 in exact arithmetic — hence within any
floating tolerance of 1.0 — and for an empty node list the function returns
the empty (zero) mapping. -/
theorem C3_pagerank_mass_conservation (ids : List PyStr)
    (out : PyStr → Finset PyStr) (hne : ids ≠ []) (hnd : ids.Nodup)
    (hsub : ∀ s, ∀ y ∈ out s, y ∈ ids) :
    ((ids.map (_pagerank ids out 0.85 30)).sum) = 1 ∧
    (∀ x, _pagerank [] out 0.85 30 x = 0) := by
  have hn : ids.length ≠ 0 := fun h => hne (List.length_eq_zero.mp h)
  constructor
  · unfold _pagerank
    simp only [if_neg hn]
    exact pr_iterate_sum ids hnd out 0.85 hsub hn 30
  · intro x
    rfl

/-- Witness for C3 (amended) at the one-node dangling graph. -/
theorem C3_pagerank_mass_conservation_witness :
    ([(['a'] : PyStr)] : List PyStr) ≠ [] ∧ ([(['a'] : PyStr)] : List PyStr).Nodup ∧
    (([(['a'] : PyStr)]).map
      (_pagerank [['a']] (fun _ => (∅ : Finset PyStr)) 0.85 30)).sum = 1 := by
  refine ⟨by decide, by decide, ?_⟩
  exact (C3_pagerank_mass_conservation [['a']] (fun _ => ∅) (by decide) (by decide)
    (fun s y hy => absurd hy (Finset.not_mem_empty y))).1

theorem prIter_stray (pr : PyStr → ℚ) :
    prIter [['a']] (fun _ => ({['b']} : Finset PyStr)) 0.85 1 pr ['a'] = 3/20 := by
  unfold prIter prStepOne
  simp only [List.foldl_cons, List.foldl_nil]
  have hne : ({(['b'] : PyStr)} : Finset PyStr).Nonempty := Finset.singleton_nonempty _
  rw [if_pos hne]
  have hmem : (['a'] : PyStr) ∉ ({['b']} : Finset PyStr) := by decide
  simp only [if_neg hmem]
  norm_num

theorem prIter_dup (pr : PyStr → ℚ) :
    prIter [(['a'] : PyStr), ['a']] (fun _ => (∅ : Finset PyStr)) 0.85 2 pr ['a']
      = 3/40 + 17/10 * pr ['a'] := by
  unfold prIter prStepOne
  simp only [List.foldl_cons, List.foldl_nil, Finset.not_nonempty_empty, if_false,
    Function.update_apply]
  norm_num
  ring

theorem dup_value_nonneg (k : ℕ) :
    0 ≤ (prIter [(['a'] : PyStr), ['a']] (fun _ => (∅ : Finset PyStr)) 0.85 2)^[k]
      (fun _ => 1 / ((2 : ℕ) : ℚ)) ['a'] := by
  induction k with
  | zero =>
    simp only [Function.iterate_zero_apply]
    norm_num
  | succ k ih =>
    rw [Function.iterate_succ_apply', prIter_dup]
    linarith

theorem dup_value_ge_two (k : ℕ) (hk : 3 ≤ k) :
    2 ≤ (prIter [(['a'] : PyStr), ['a']] (fun _ => (∅ : Finset PyStr)) 0.85 2)^[k]
      (fun _ => 1 / ((2 : ℕ) : ℚ)) ['a'] := by
  induction k, hk using Nat.le_induction with
  | base =>
    rw [show (3 : ℕ) = 2 + 1 from rfl, Function.iterate_succ_apply', prIter_dup,
      show (2 : ℕ) = 1 + 1 from rfl, Function.iterate_succ_apply', prIter_dup,
      show (1 : ℕ) = 0 + 1 from rfl, Function.iterate_succ_apply', prIter_dup,
      Function.iterate_zero_apply]
    norm_num
  | succ n hn ih =>
    rw [Function.iterate_succ_apply', prIter_dup]
    linarith

/-- Counterexample for C3 as stated: the universal claim over "every node list
and every out-adjacency map" fails.  With an out-neighbor outside the node list
the rank mass leaks (the single node's 30-iteration value, hence the sum over
the node list, is exactly 3/20); and with a duplicated id in the node list the
iteration diverges (the node's value reaches at least 2 > 1). -/
theorem C3_counterexample :
    ((([(['a'] : PyStr)]).map
      (_pagerank [['a']] (fun _ => ({['b']} : Finset PyStr)) 0.85 30)).sum) = 3/20 ∧
    2 ≤ _pagerank [(['a'] : PyStr), ['a']] (fun _ => (∅ : Finset PyStr)) 0.85 30 ['a'] := by
  constructor
  · simp only [List.map_cons, List.map_nil, List.sum_cons, List.sum_nil, add_zero]
    unfold _pagerank
    rw [if_neg (show ¬([(['a'] : PyStr)].length = 0) by decide)]
    show (prIter [['a']] (fun _ => ({['b']} : Finset PyStr)) 0.85 1)^[30]
      (fun _ => 1 / ((1 : ℕ) : ℚ)) ['a'] = 3/20
    rw [show (30 : ℕ) = 29 + 1 from rfl, Function.iterate_succ_apply']
    exact prIter_stray _
  · unfold _pagerank
    rw [if_neg (show ¬([(['a'] : PyStr), ['a']].length = 0) by decide)]
    show 2 ≤ (prIter [(['a'] : PyStr), ['a']] (fun _ => (∅ : Finset PyStr)) 0.85 2)^[30]
      (fun _ => 1 / ((2 : ℕ) : ℚ)) ['a']
    exact dup_value_ge_two 30 (by norm_num)

theorem mem_outMapOf_go (ps : List (PyStr × PyStr)) (m : PyStr → Finset PyStr)
    (s t : PyStr) :
    (t ∈ (ps.foldl (fun m p => Function.update m p.1 (insert p.2 (m p.1))) m) s) ↔
      ((s, t) ∈ ps ∨ t ∈ m s) := by
  induction ps generalizing m with
  | nil => simp
  | cons p ps ih =>
    rcases p with ⟨p1, p2⟩
    simp only [List.foldl_cons, ih, List.mem_cons, Function.update_apply]
    by_cases hs : s = p1
    · subst hs
      simp only [eq_self_iff_true, if_true, Finset.mem_insert, Prod.mk.injEq]
      tauto
    · simp only [if_neg hs, Prod.mk.injEq]
      constructor
      · tauto
      · rintro ((⟨h1, _⟩ | h) | h)
        · exact absurd h1 hs
        · exact Or.inl h
        · exact Or.inr h

theorem mem_outMapOf (ps : List (PyStr × PyStr)) (s t : PyStr) :
    (t ∈ outMapOf ps s) ↔ ((s, t) ∈ ps) := by
  unfold outMapOf
  rw [mem_outMapOf_go]
  simp

theorem mem_inMapOf_go (ps : List (PyStr × PyStr)) (m : PyStr → Finset PyStr)
    (s t : PyStr) :
    (s ∈ (ps.foldl (fun m p => Function.update m p.2 (insert p.1 (m p.2))) m) t) ↔
      ((s, t) ∈ ps ∨ s ∈ m t) := by
  induction ps generalizing m with
  | nil => simp
  | cons p ps ih =>
    rcases p with ⟨p1, p2⟩
    simp only [List.foldl_cons, ih, List.mem_cons, Function.update_apply]
    by_cases ht : t = p2
    · subst ht
      simp only [eq_self_iff_true, if_true, Finset.mem_insert, Prod.mk.injEq]
      tauto
    · simp only [if_neg ht, Prod.mk.injEq]
      constructor
      · tauto
      · rintro ((⟨_, h2⟩ | h) | h)
        · exact absurd h2 ht
        · exact Or.inl h
        · exact Or.inr h

theorem mem_inMapOf (ps : List (PyStr × PyStr)) (s t : PyStr) :
    (s ∈ inMapOf ps t) ↔ ((s, t) ∈ ps) := by
  unfold inMapOf
  rw [mem_inMapOf_go]
  simp

/-- C1 (amended): only the adjacency structure coalesces duplicate raw links.
If one links list yields exactly the deduplicated accepted pairs of another
(e.g. the same list with duplicate raw links removed), then both produce
identical `out_map` and `in_map` adjacency maps, and identical `build_layers`
reciprocal counts (which are computed from the adjacency sets alone).  The
per-occurrence quantities of `compute_quanzhong_metrics` — `reciprocal_count`,
`weighted_degree`, `weighted_links` — and the `build_layers` weighted degrees
do count duplicates (see the counterexample). -/
theorem C1_adjacency_dedup (nodes : List (Option QNode))
    (links links' : List (Option RawLink))
    (hpairs : link_pairs nodes links' = (link_pairs nodes links).dedup) :
    outMapOf (link_pairs nodes links') = outMapOf (link_pairs nodes links) ∧
    inMapOf (link_pairs nodes links') = inMapOf (link_pairs nodes links) ∧
    (∀ s, blReciprocalCount nodes links' s = blReciprocalCount nodes links s) := by
  have hout : outMapOf (link_pairs nodes links') = outMapOf (link_pairs nodes links) := by
    funext s
    ext t
    rw [mem_outMapOf, mem_outMapOf, hpairs, List.mem_dedup]
  refine ⟨hout, ?_, ?_⟩
  · funext t
    ext s
    rw [mem_inMapOf, mem_inMapOf, hpairs, List.mem_dedup]
  · intro s
    unfold blReciprocalCount
    rw [hout]

/-- Witness for C1 (amended) at the concrete duplicate-link graph. -/
theorem C1_adjacency_dedup_witness :
    link_pairs nodesC1 linksC1d = (link_pairs nodesC1 linksC1).dedup ∧
    outMapOf (link_pairs nodesC1 linksC1d) = outMapOf (link_pairs nodesC1 linksC1) := by
  have h := C1_adjacency_dedup nodesC1 linksC1 linksC1d (by decide)
  exact ⟨by decide, h.1⟩

/-- Counterexample for C1 as stated: removing the duplicate raw link `a→b`
changes the quanzhong `reciprocal_count` of `a` (2 with the duplicate, 1
without) and the length of the `weighted_links` output (3 records versus 2),
so the scoring results are not invariant under deduplication. -/
theorem C1_counterexample :
    reciprocalCountOf nodesC1 linksC1 ['a'] = 2 ∧
    reciprocalCountOf nodesC1 linksC1d ['a'] = 1 ∧
    (weightedLinksOf nodesC1 linksC1).length = 3 ∧
    (weightedLinksOf nodesC1 linksC1d).length = 2 := by
  refine ⟨by decide, by decide, ?_, ?_⟩
  · unfold weightedLinksOf
    rw [List.length_map]
    decide
  · unfold weightedLinksOf
    rw [List.length_map]
    decide

theorem le_rndHalfEven (q : ℚ) (z : ℤ) (h : (z : ℚ) ≤ q) : z ≤ rndHalfEven q := by
  unfold rndHalfEven
  rw [ratFloor_eq_floor]
  have hf : z ≤ ⌊q⌋ := Int.le_floor.mpr h
  split_ifs <;> omega

theorem rndHalfEven_le (q : ℚ) (z : ℤ) (h : q ≤ (z : ℚ)) : rndHalfEven q ≤ z := by
  unfold rndHalfEven
  rw [ratFloor_eq_floor]
  have hfl : ⌊q⌋ ≤ z := by
    have h2 := Int.floor_mono h
    rwa [Int.floor_intCast] at h2
  by_cases h1 : q - ⌊q⌋ < 1/2
  · rw [if_pos h1]
    exact hfl
  · rw [if_neg h1]
    have hlt : (⌊q⌋ : ℚ) < q := by
      push_neg at h1
      linarith
    have hzlt : ⌊q⌋ < z := by
      exact_mod_cast lt_of_lt_of_le hlt h
    split_ifs <;> omega

theorem pyRound_mem_Icc (q : ℚ) (h1 : 1/50 ≤ q) (h2 : q ≤ 1) :
    1/50 ≤ pyRound q 6 ∧ pyRound q 6 ≤ 1 := by
  unfold pyRound
  have h10 : (0 : ℚ) < 10 ^ 6 := by norm_num
  constructor
  · rw [le_div_iff₀ h10]
    have hlow := le_rndHalfEven (q * 10 ^ 6) 20000 (by push_cast; nlinarith)
    calc (1 : ℚ)/50 * 10 ^ 6 = ((20000 : ℤ) : ℚ) := by norm_num
    _ ≤ ((rndHalfEven (q * 10 ^ 6) : ℤ) : ℚ) := by exact_mod_cast hlow
  · rw [div_le_iff₀ h10]
    have hup := rndHalfEven_le (q * 10 ^ 6) 1000000 (by push_cast; nlinarith)
    calc ((rndHalfEven (q * 10 ^ 6) : ℤ) : ℚ) ≤ ((1000000 : ℤ) : ℚ) := by exact_mod_cast hup
    _ = 1 * 10 ^ 6 := by norm_num

theorem edgeWeightVal_bounds (out inm tok : PyStr → Finset PyStr) (s t : PyStr) :
    0.02 ≤ edgeWeightVal out inm tok s t ∧ edgeWeightVal out inm tok s t ≤ 1 := by
  unfold edgeWeightVal
  constructor
  · exact le_max_left _ _
  · exact max_le (by norm_num) (le_trans (min_le_left _ _) (by norm_num))

/-- C6: edge-weight synthesis and bounds.  For every accepted pair `(s, t)`,
the derived record is in `weighted_links`; `structural` is the documented
blend `0.50·reciprocal + 0.25·shared_out + 0.25·shared_in`; `reciprocal` is 1
exactly when the reverse edge `t→s` is also accepted (and is 0 otherwise); the
edge weight is `clamp(0.65·structural + 0.35·semantic_sim, 0.02, 1.0)`; and
both the unrounded weight and the stored (rounded) weight lie in
`[0.02, 1.0]`. -/
theorem C6_edge_weight_synthesis (nodes : List (Option QNode))
    (links : List (Option RawLink)) (p : PyStr × PyStr)
    (hmem : p ∈ link_pairs nodes links) :
    (wlinkEntry (outMapOf (link_pairs nodes links)) (inMapOf (link_pairs nodes links))
        (tokenMapOf nodes) p ∈ weightedLinksOf nodes links) ∧
    (edgeStructural (outMapOf (link_pairs nodes links))
        (inMapOf (link_pairs nodes links)) p.1 p.2
      = 0.50 * edgeReciprocal (outMapOf (link_pairs nodes links)) p.1 p.2
        + 0.25 * _jaccard (outMapOf (link_pairs nodes links) p.1)
            (outMapOf (link_pairs nodes links) p.2)
        + 0.25 * _jaccard (inMapOf (link_pairs nodes links) p.1)
            (inMapOf (link_pairs nodes links) p.2)) ∧
    ((edgeReciprocal (outMapOf (link_pairs nodes links)) p.1 p.2 = 1 ↔
        (p.2, p.1) ∈ link_pairs nodes links) ∧
      (edgeReciprocal (outMapOf (link_pairs nodes links)) p.1 p.2 = 1 ∨
        edgeReciprocal (outMapOf (link_pairs nodes links)) p.1 p.2 = 0)) ∧
    (edgeWeightVal (outMapOf (link_pairs nodes links)) (inMapOf (link_pairs nodes links))
        (tokenMapOf nodes) p.1 p.2
      = max 0.02 (min 1.0
          (0.65 * edgeStructural (outMapOf (link_pairs nodes links))
              (inMapOf (link_pairs nodes links)) p.1 p.2
            + 0.35 * edgeSemantic (tokenMapOf nodes) p.1 p.2))) ∧
    (0.02 ≤ edgeWeightVal (outMapOf (link_pairs nodes links))
        (inMapOf (link_pairs nodes links)) (tokenMapOf nodes) p.1 p.2 ∧
      edgeWeightVal (outMapOf (link_pairs nodes links))
        (inMapOf (link_pairs nodes links)) (tokenMapOf nodes) p.1 p.2 ≤ 1) ∧
    ((wlinkEntry (outMapOf (link_pairs nodes links)) (inMapOf (link_pairs nodes links))
        (tokenMapOf nodes) p).weight
      = pyRound (edgeWeightVal (outMapOf (link_pairs nodes links))
          (inMapOf (link_pairs nodes links)) (tokenMapOf nodes) p.1 p.2) 6 ∧
      0.02 ≤ (wlinkEntry (outMapOf (link_pairs nodes links))
          (inMapOf (link_pairs nodes links)) (tokenMapOf nodes) p).weight ∧
      (wlinkEntry (outMapOf (link_pairs nodes links)) (inMapOf (link_pairs nodes links))
        (tokenMapOf nodes) p).weight ≤ 1) := by
  have hb := edgeWeightVal_bounds (outMapOf (link_pairs nodes links))
    (inMapOf (link_pairs nodes links)) (tokenMapOf nodes) p.1 p.2
  have hround := pyRound_mem_Icc (edgeWeightVal (outMapOf (link_pairs nodes links))
    (inMapOf (link_pairs nodes links)) (tokenMapOf nodes) p.1 p.2)
    (by linarith [hb.1]) hb.2
  have hw : (wlinkEntry (outMapOf (link_pairs nodes links))
      (inMapOf (link_pairs nodes links)) (tokenMapOf nodes) p).weight
      = pyRound (edgeWeightVal (outMapOf (link_pairs nodes links))
          (inMapOf (link_pairs nodes links)) (tokenMapOf nodes) p.1 p.2) 6 := rfl
  refine ⟨?_, rfl, ⟨?_, ?_⟩, rfl, hb, hw, ?_, ?_⟩
  · exact List.mem_map_of_mem _ hmem
  · constructor
    · intro h
      by_cases hm : p.1 ∈ outMapOf (link_pairs nodes links) p.2
      · exact (mem_outMapOf _ _ _).mp hm
      · rw [edgeReciprocal, if_neg hm] at h
        norm_num at h
    · intro h
      rw [edgeReciprocal, if_pos ((mem_outMapOf _ _ _).mpr h)]
      norm_num
  · unfold edgeReciprocal
    by_cases hm : p.1 ∈ outMapOf (link_pairs nodes links) p.2
    · left
      rw [if_pos hm]
      norm_num
    · right
      rw [if_neg hm]
      norm_num
  · rw [hw]
    have h1 := hround.1
    linarith
  · rw [hw]
    exact hround.2

/-- Witness for C6 at the accepted edge `(a, b)` of the concrete graph. -/
theorem C6_edge_weight_synthesis_witness :
    (((['a'], ['b']) : PyStr × PyStr) ∈ link_pairs nodesC1 linksC1d) ∧
    0.02 ≤ (wlinkEntry (outMapOf (link_pairs nodesC1 linksC1d))
        (inMapOf (link_pairs nodesC1 linksC1d)) (tokenMapOf nodesC1)
        ((['a'], ['b']) : PyStr × PyStr)).weight ∧
    (wlinkEntry (outMapOf (link_pairs nodesC1 linksC1d))
        (inMapOf (link_pairs nodesC1 linksC1d)) (tokenMapOf nodesC1)
        ((['a'], ['b']) : PyStr × PyStr)).weight ≤ 1 := by
  have h := C6_edge_weight_synthesis nodesC1 linksC1d (['a'], ['b']) (by decide)
  exact ⟨by decide, h.2.2.2.2.2.2.1, h.2.2.2.2.2.2.2⟩

theorem ind_names_length : ind_names.length = 11 := rfl

theorem _minmax_of_const (l : List ℚ) (h : ∀ a ∈ l, ∀ b ∈ l, a = b) :
    _minmax l = l.map (fun _ => 0) := by
  unfold _minmax
  by_cases hl : l = []
  · simp [hl]
  · have hmin := pyMin_mem l hl
    have hmax := pyMax_mem l hl
    have : pyMax l ≤ pyMin l := le_of_eq (h _ hmax _ hmin)
    simp only [if_neg hl, if_pos this]

theorem cvsOf_of_const (nodes : List (Option QNode)) (links : List (Option RawLink))
    (emap : PyStr → Option ERec) (lg sq : ℚ → ℚ) (nm : IndName)
    (h : ∀ a ∈ indRawOf nodes links emap lg nm, ∀ b ∈ indRawOf nodes links emap lg nm,
      a = b) :
    cvsOf nodes links emap lg sq nm = 0 := by
  unfold cvsOf
  dsimp only
  have hnorm : indNormOf nodes links emap lg nm
      = (indRawOf nodes links emap lg nm).map (fun _ => 0) := by
    unfold indNormOf
    exact _minmax_of_const _ h
  rw [hnorm]
  have hsum : (((indRawOf nodes links emap lg nm).map (fun _ => (0:ℚ))).sum) = 0 := by
    rw [sum_map_const_div]
    ring
  by_cases hl : (indRawOf nodes links emap lg nm).map (fun _ => (0:ℚ)) = []
  · rw [if_pos hl]
    norm_num
  · rw [if_neg hl]
    rw [hsum]
    norm_num

theorem cvsOf_nonneg (nodes : List (Option QNode)) (links : List (Option RawLink))
    (emap : PyStr → Option ERec) (lg sq : ℚ → ℚ) (hsq : ∀ x, 0 ≤ sq x)
    (nm : IndName) : 0 ≤ cvsOf nodes links emap lg sq nm := by
  unfold cvsOf
  dsimp only
  by_cases hl : indNormOf nodes links emap lg nm = []
  · rw [if_pos hl]
    split_ifs with h h2 <;> norm_num at h ⊢
  · rw [if_neg hl]
    split_ifs with h h2
    · exact div_nonneg (hsq _) (by linarith)
    · exact div_nonneg (by norm_num) (by linarith)
    · norm_num

theorem totalCvOf_nonneg (nodes : List (Option QNode)) (links : List (Option RawLink))
    (emap : PyStr → Option ERec) (lg sq : ℚ → ℚ) (hsq : ∀ x, 0 ≤ sq x) :
    0 ≤ totalCvOf nodes links emap lg sq := by
  unfold totalCvOf
  apply List.sum_nonneg
  intro x hx
  rcases List.mem_map.mp hx with ⟨nm, _, hnm⟩
  rw [← hnm]
  exact cvsOf_nonneg nodes links emap lg sq hsq nm

/-- C8: the coefficient-of-variation indicator weights are each in `[0, 1]` and
sum to exactly 1; an indicator whose raw list is constant across all nodes has
CV 0 and (when the uniform fallback is not triggered) weight 0; and when the
total CV is at most the `1e-9` threshold (in particular when every indicator is
constant) every weight falls back to the uniform `1/11`. -/
theorem C8_indicator_weights (nodes : List (Option QNode))
    (links : List (Option RawLink)) (emap : PyStr → Option ERec) (lg sq : ℚ → ℚ)
    (hsq : ∀ x, 0 ≤ sq x) :
    (∀ nm ∈ ind_names, 0 ≤ kWeightOf nodes links emap lg sq nm ∧
      kWeightOf nodes links emap lg sq nm ≤ 1) ∧
    ((ind_names.map (kWeightOf nodes links emap lg sq)).sum = 1) ∧
    (∀ nm : IndName,
      (∀ a ∈ indRawOf nodes links emap lg nm,
        ∀ b ∈ indRawOf nodes links emap lg nm, a = b) →
      1e-9 < totalCvOf nodes links emap lg sq →
      kWeightOf nodes links emap lg sq nm = 0) ∧
    (totalCvOf nodes links emap lg sq ≤ 1e-9 →
      ∀ nm : IndName, kWeightOf nodes links emap lg sq nm
        = 1 / (ind_names.length : ℚ)) := by
  refine ⟨?_, ?_, ?_, ?_⟩
  · intro nm hnm
    unfold kWeightOf
    by_cases hc : totalCvOf nodes links emap lg sq ≤ 1e-9
    · rw [if_pos hc]
      rw [ind_names_length]
      norm_num
    · rw [if_neg hc]
      push_neg at hc
      constructor
      · exact div_nonneg (cvsOf_nonneg nodes links emap lg sq hsq nm) (by linarith)
      · rw [div_le_one (by linarith)]
        unfold totalCvOf
        exact List.single_le_sum
          (fun x hx => by
            rcases List.mem_map.mp hx with ⟨nm2, _, hnm2⟩
            rw [← hnm2]
            exact cvsOf_nonneg nodes links emap lg sq hsq nm2) _
          (List.mem_map_of_mem _ hnm)
  · by_cases hc : totalCvOf nodes links emap lg sq ≤ 1e-9
    · have hmap : ind_names.map (kWeightOf nodes links emap lg sq)
          = ind_names.map (fun _ => 1 / (ind_names.length : ℚ)) :=
        List.map_congr_left (fun nm _ => by unfold kWeightOf; rw [if_pos hc])
      rw [hmap, sum_map_const_div]
      rw [ind_names_length]
      norm_num
    · push_neg at hc
      have hne : totalCvOf nodes links emap lg sq ≠ 0 := by linarith
      have hmap : ind_names.map (kWeightOf nodes links emap lg sq)
          = ind_names.map (fun nm => cvsOf nodes links emap lg sq nm
              * (totalCvOf nodes links emap lg sq)⁻¹) :=
        List.map_congr_left (fun nm _ => by
          unfold kWeightOf
          rw [if_neg (not_le.mpr hc), div_eq_mul_inv])
      rw [hmap, List.sum_map_mul_right]
      unfold totalCvOf
      exact mul_inv_cancel₀ (by unfold totalCvOf at hne; exact hne)
  · intro nm hconst hc
    unfold kWeightOf
    rw [if_neg (not_le.mpr hc)]
    rw [cvsOf_of_const nodes links emap lg sq nm hconst]
    exact zero_div _
  · intro hc nm
    unfold kWeightOf
    rw [if_pos hc]

/-- Witness for C8 at a concrete graph with the zero square-root model. -/
theorem C8_indicator_weights_witness :
    (∀ x : ℚ, 0 ≤ (fun _ : ℚ => (0 : ℚ)) x) ∧
    ((ind_names.map
      (kWeightOf nodesC1 linksC1 (fun _ => Option.none) (fun x => x)
        (fun _ => 0))).sum = 1) := by
  refine ⟨fun x => le_refl 0, ?_⟩
  exact (C8_indicator_weights nodesC1 linksC1 (fun _ => Option.none) (fun x => x)
    (fun _ => 0) (fun x => le_refl 0)).2.1

theorem getD_mem (l : List ℚ) (i : ℕ) (h : i < l.length) (d : ℚ) : l.getD i d ∈ l := by
  rw [List.getD_eq_getElem l d h]
  exact List.getElem_mem h

theorem list_sum_lt_sum {α : Type} (l : List α) (f g : α → ℚ)
    (hle : ∀ x ∈ l, f x ≤ g x) (hex : ∃ x ∈ l, f x < g x) :
    (l.map f).sum < (l.map g).sum := by
  induction l with
  | nil =>
    rcases hex with ⟨x, hx, _⟩
    simp at hx
  | cons a l ih =>
    rcases hex with ⟨x, hx, hfg⟩
    rcases List.mem_cons.mp hx with rfl | hxl
    · have hrest : (l.map f).sum ≤ (l.map g).sum :=
        List.sum_le_sum (fun y hy => hle y (List.mem_cons_of_mem _ hy))
      simp only [List.map_cons, List.sum_cons]
      linarith
    · have ha := hle a (List.mem_cons_self a l)
      have hr := ih (fun y hy => hle y (List.mem_cons_of_mem _ hy)) ⟨x, hxl, hfg⟩
      simp only [List.map_cons, List.sum_cons]
      linarith

theorem mem_graDeltas (ind : IndName → List ℚ) (nm : IndName) (hnm : nm ∈ ind_names)
    (x : ℚ) (hx : x ∈ ind nm) : |1 - x| ∈ graDeltas ind := by
  unfold graDeltas
  exact List.mem_flatten_of_mem (List.mem_map_of_mem _ hnm) (List.mem_map_of_mem _ hx)

theorem graDeltas_nonneg (ind : IndName → List ℚ) (y : ℚ) (hy : y ∈ graDeltas ind) :
    0 ≤ y := by
  unfold graDeltas at hy
  rcases List.mem_flatten.mp hy with ⟨l, hl, hyl⟩
  rcases List.mem_map.mp hl with ⟨nm, _, hnm⟩
  rw [← hnm] at hyl
  rcases List.mem_map.mp hyl with ⟨x, _, hx⟩
  rw [← hx]
  exact abs_nonneg _

theorem graDeltaMin_eq_zero (ind : IndName → List ℚ) (h0 : (0 : ℚ) ∈ graDeltas ind) :
    graDeltaMin ind = 0 := by
  unfold graDeltaMin
  have hne : graDeltas ind ≠ [] := by
    intro he
    rw [he] at h0
    simp at h0
  rw [if_neg hne]
  have h1 := pyMin_le _ _ h0
  have h2 := graDeltas_nonneg ind _ (pyMin_mem _ hne)
  linarith

theorem graDeltaMax_pos (ind : IndName → List ℚ) :
    0 < graDeltaMax ind ∧ ∀ y ∈ graDeltas ind, y ≤ graDeltaMax ind := by
  unfold graDeltaMax
  by_cases hne : graDeltas ind = []
  · constructor
    · split_ifs <;> norm_num
    · intro y hy
      rw [hne] at hy
      simp at hy
  · simp only [if_neg hne]
    by_cases hm : pyMax (graDeltas ind) ≤ 1e-9
    · rw [if_pos hm]
      refine ⟨by norm_num, fun y hy => ?_⟩
      have := pyMax_ge _ _ hy
      calc y ≤ pyMax (graDeltas ind) := this
      _ ≤ 1e-9 := hm
      _ ≤ 1 := by norm_num
    · rw [if_neg hm]
      push_neg at hm
      exact ⟨by linarith, fun y hy => pyMax_ge _ _ hy⟩

/-- C2: GRA ideal-node dominance.  For the exact grey-relation scoring loop of
`compute_quanzhong_metrics` (`graScore`, which `greyRelationAt` instantiates
with the CV weights and normalized indicators), with any `rho > 0` and any
nonnegative indicator weights summing to 1: if node `istar`'s normalized value
is 1 (deviation 0) on every indicator and node `j`'s normalized value differs
from 1 (deviation strictly positive) on every indicator, then `istar`'s grey
relation score is strictly higher than `j`'s. -/
theorem C2_gra_ideal_dominance (kw : IndName → ℚ) (ind : IndName → List ℚ)
    (rho : ℚ) (hrho : 0 < rho)
    (hkw0 : ∀ nm, 0 ≤ kw nm) (hkw1 : (ind_names.map kw).sum = 1)
    (n : ℕ) (hlen : ∀ nm ∈ ind_names, (ind nm).length = n)
    (istar : ℕ) (histar : istar < n)
    (hideal : ∀ nm ∈ ind_names, (ind nm).getD istar 0 = 1)
    (j : ℕ) (hworse : ∀ nm ∈ ind_names, (ind nm).getD j 0 ≠ 1) :
    graScore kw ind rho j < graScore kw ind rho istar := by
  have hnm1 : IndName.followers_log ∈ ind_names := by decide
  have hmem0 : (0 : ℚ) ∈ graDeltas ind := by
    have hx : (ind .followers_log).getD istar 0 ∈ ind .followers_log :=
      getD_mem _ _ (by rw [hlen _ hnm1]; exact histar) _
    have hd := mem_graDeltas ind _ hnm1 _ hx
    rwa [hideal _ hnm1, show |1 - (1 : ℚ)| = 0 by norm_num] at hd
  have hdmin : graDeltaMin ind = 0 := graDeltaMin_eq_zero ind hmem0
  obtain ⟨hdmax_pos, _⟩ := graDeltaMax_pos ind
  have hden_pos : 0 < rho * graDeltaMax ind := mul_pos hrho hdmax_pos
  have histar_eq : graScore kw ind rho istar = 1 := by
    unfold graScore
    rw [hdmin]
    have hmap : ind_names.map (fun nm => kw nm * ((0 + rho * graDeltaMax ind) /
        (|1 - (ind nm).getD istar 0| + rho * graDeltaMax ind)))
        = ind_names.map kw := by
      apply List.map_congr_left
      intro nm hnm
      rw [hideal nm hnm]
      rw [show |1 - (1 : ℚ)| = 0 by norm_num]
      rw [zero_add, div_self (ne_of_gt hden_pos), mul_one]
    rw [hmap, hkw1]
  rw [histar_eq, ← hkw1]
  unfold graScore
  rw [hdmin]
  apply list_sum_lt_sum
  · intro nm _
    have habs := abs_nonneg (1 - (ind nm).getD j 0)
    have hgle : (0 + rho * graDeltaMax ind) /
        (|1 - (ind nm).getD j 0| + rho * graDeltaMax ind) ≤ 1 := by
      rw [div_le_one (by linarith)]
      linarith
    calc kw nm * ((0 + rho * graDeltaMax ind) /
          (|1 - (ind nm).getD j 0| + rho * graDeltaMax ind))
        ≤ kw nm * 1 := mul_le_mul_of_nonneg_left hgle (hkw0 nm)
    _ = kw nm := mul_one _
  · have hex : ∃ nm ∈ ind_names, 0 < kw nm := by
      by_contra hno
      push_neg at hno
      have hzero : ind_names.map kw = ind_names.map (fun _ => 0) :=
        List.map_congr_left (fun nm hnm => le_antisymm (hno nm hnm) (hkw0 nm))
      have : (ind_names.map kw).sum = 0 := by
        rw [hzero, sum_map_const_div]
        ring
      rw [hkw1] at this
      norm_num at this
    rcases hex with ⟨nm0, hnm0, hkwpos⟩
    refine ⟨nm0, hnm0, ?_⟩
    have habs_pos : 0 < |1 - (ind nm0).getD j 0| := by
      rw [abs_pos]
      intro hz
      exact hworse nm0 hnm0 (by linarith)
    have hglt : (0 + rho * graDeltaMax ind) /
        (|1 - (ind nm0).getD j 0| + rho * graDeltaMax ind) < 1 := by
      rw [div_lt_one (by linarith)]
      linarith
    calc kw nm0 * ((0 + rho * graDeltaMax ind) /
          (|1 - (ind nm0).getD j 0| + rho * graDeltaMax ind))
        < kw nm0 * 1 := by
          exact mul_lt_mul_of_pos_left hglt hkwpos
    _ = kw nm0 := mul_one _

/-- Witness for C2: uniform weights, two nodes, the first ideal on every
indicator, the second strictly worse on every indicator. -/
theorem C2_gra_ideal_dominance_witness :
    graScore (fun _ => 1/11) (fun _ => [1, 0]) (1/2) 1
      < graScore (fun _ => 1/11) (fun _ => [1, 0]) (1/2) 0 := by
  apply C2_gra_ideal_dominance (fun _ => 1/11) (fun _ => [1, 0]) (1/2)
    (by norm_num) (fun _ => by norm_num)
    (by rw [sum_map_const_div, ind_names_length]; norm_num)
    2 (fun nm _ => rfl) 0 (by norm_num) (fun nm _ => rfl) 1
    (fun nm _ => by norm_num)

theorem kWeightOf_nonneg (nodes : List (Option QNode)) (links : List (Option RawLink))
    (emap : PyStr → Option ERec) (lg sq : ℚ → ℚ) (hsq : ∀ x, 0 ≤ sq x)
    (nm : IndName) : 0 ≤ kWeightOf nodes links emap lg sq nm := by
  unfold kWeightOf
  by_cases hc : totalCvOf nodes links emap lg sq ≤ 1e-9
  · rw [if_pos hc, ind_names_length]
    norm_num
  · rw [if_neg hc]
    push_neg at hc
    exact div_nonneg (cvsOf_nonneg nodes links emap lg sq hsq nm) (by linarith)

theorem kWeightOf_sum (nodes : List (Option QNode)) (links : List (Option RawLink))
    (emap : PyStr → Option ERec) (lg sq : ℚ → ℚ) :
    (ind_names.map (kWeightOf nodes links emap lg sq)).sum = 1 := by
  by_cases hc : totalCvOf nodes links emap lg sq ≤ 1e-9
  · have hmap : ind_names.map (kWeightOf nodes links emap lg sq)
        = ind_names.map (fun _ => 1 / (ind_names.length : ℚ)) :=
      List.map_congr_left (fun nm _ => by unfold kWeightOf; rw [if_pos hc])
    rw [hmap, sum_map_const_div, ind_names_length]
    norm_num
  · push_neg at hc
    have hne : totalCvOf nodes links emap lg sq ≠ 0 := by linarith
    have hmap : ind_names.map (kWeightOf nodes links emap lg sq)
        = ind_names.map (fun nm => cvsOf nodes links emap lg sq nm
            * (totalCvOf nodes links emap lg sq)⁻¹) :=
      List.map_congr_left (fun nm _ => by
        unfold kWeightOf
        rw [if_neg (not_le.mpr hc), div_eq_mul_inv])
    rw [hmap, List.sum_map_mul_right]
    unfold totalCvOf
    exact mul_inv_cancel₀ (by unfold totalCvOf at hne; exact hne)

theorem graDeltaMin_nonneg (ind : IndName → List ℚ) : 0 ≤ graDeltaMin ind := by
  unfold graDeltaMin
  split_ifs with h
  · norm_num
  · exact graDeltas_nonneg _ _ (pyMin_mem _ h)

theorem graScore_mem_Ioc (kw : IndName → ℚ) (ind : IndName → List ℚ) (rho : ℚ)
    (i : ℕ) (hrho : 0 < rho) (hkw0 : ∀ nm, 0 ≤ kw nm)
    (hkw1 : (ind_names.map kw).sum = 1)
    (hlen : ∀ nm ∈ ind_names, i < (ind nm).length) :
    0 < graScore kw ind rho i ∧ graScore kw ind rho i ≤ 1 := by
  obtain ⟨hdmax_pos, hdmax_ub⟩ := graDeltaMax_pos ind
  have hdmin0 := graDeltaMin_nonneg ind
  have hmem : ∀ nm ∈ ind_names, |1 - (ind nm).getD i 0| ∈ graDeltas ind :=
    fun nm hnm => mem_graDeltas ind nm hnm _ (getD_mem _ _ (hlen nm hnm) _)
  have hne : graDeltas ind ≠ [] := by
    intro he
    have := hmem IndName.followers_log (by decide)
    rw [he] at this
    simp at this
  have hdminle : ∀ nm ∈ ind_names, graDeltaMin ind ≤ |1 - (ind nm).getD i 0| := by
    intro nm hnm
    unfold graDeltaMin
    rw [if_neg hne]
    exact pyMin_le _ _ (hmem nm hnm)
  have hub : ∀ nm ∈ ind_names, |1 - (ind nm).getD i 0| ≤ graDeltaMax ind :=
    fun nm hnm => hdmax_ub _ (hmem nm hnm)
  have hnum_pos : 0 < graDeltaMin ind + rho * graDeltaMax ind := by nlinarith
  have hlow_pos : 0 < (graDeltaMin ind + rho * graDeltaMax ind)
      / (graDeltaMax ind + rho * graDeltaMax ind) := by
    apply div_pos hnum_pos
    nlinarith
  constructor
  · have hterm : ∀ nm ∈ ind_names,
        kw nm * ((graDeltaMin ind + rho * graDeltaMax ind)
          / (graDeltaMax ind + rho * graDeltaMax ind))
        ≤ kw nm * ((graDeltaMin ind + rho * graDeltaMax ind) /
            (|1 - (ind nm).getD i 0| + rho * graDeltaMax ind)) := by
      intro nm hnm
      have habs := abs_nonneg (1 - (ind nm).getD i 0)
      refine mul_le_mul_of_nonneg_left ?_ (hkw0 nm)
      apply div_le_div_of_nonneg_left (le_of_lt hnum_pos) (by nlinarith)
      have := hub nm hnm
      linarith
    have hsumlow : (ind_names.map (fun nm =>
        kw nm * ((graDeltaMin ind + rho * graDeltaMax ind)
          / (graDeltaMax ind + rho * graDeltaMax ind)))).sum
        = (graDeltaMin ind + rho * graDeltaMax ind)
          / (graDeltaMax ind + rho * graDeltaMax ind) := by
      rw [List.sum_map_mul_right, hkw1, one_mul]
    unfold graScore
    calc (0 : ℚ)
        < (graDeltaMin ind + rho * graDeltaMax ind)
          / (graDeltaMax ind + rho * graDeltaMax ind) := hlow_pos
    _ = (ind_names.map (fun nm =>
          kw nm * ((graDeltaMin ind + rho * graDeltaMax ind)
            / (graDeltaMax ind + rho * graDeltaMax ind)))).sum := hsumlow.symm
    _ ≤ (ind_names.map (fun nm =>
          kw nm * ((graDeltaMin ind + rho * graDeltaMax ind) /
            (|1 - (ind nm).getD i 0| + rho * graDeltaMax ind)))).sum :=
        List.sum_le_sum hterm
  · unfold graScore
    calc (ind_names.map (fun nm =>
          kw nm * ((graDeltaMin ind + rho * graDeltaMax ind) /
            (|1 - (ind nm).getD i 0| + rho * graDeltaMax ind)))).sum
        ≤ (ind_names.map kw).sum := by
          apply List.sum_le_sum
          intro nm hnm
          have habs := abs_nonneg (1 - (ind nm).getD i 0)
          have hden : 0 < |1 - (ind nm).getD i 0| + rho * graDeltaMax ind := by
            nlinarith
          have hγ : (graDeltaMin ind + rho * graDeltaMax ind) /
              (|1 - (ind nm).getD i 0| + rho * graDeltaMax ind) ≤ 1 := by
            rw [div_le_one hden]
            have := hdminle nm hnm
            linarith
          calc kw nm * ((graDeltaMin ind + rho * graDeltaMax ind) /
                (|1 - (ind nm).getD i 0| + rho * graDeltaMax ind))
              ≤ kw nm * 1 := mul_le_mul_of_nonneg_left hγ (hkw0 nm)
          _ = kw nm := mul_one _
    _ = 1 := hkw1

theorem indRawOf_length (nodes : List (Option QNode)) (links : List (Option RawLink))
    (emap : PyStr → Option ERec) (lg : ℚ → ℚ) (nm : IndName) :
    (indRawOf nodes links emap lg nm).length = (nodeIdsOf nodes).length := by
  cases nm <;> simp [indRawOf]

theorem indNormOf_length (nodes : List (Option QNode)) (links : List (Option RawLink))
    (emap : PyStr → Option ERec) (lg : ℚ → ℚ) (nm : IndName) :
    (indNormOf nodes links emap lg nm).length = (nodeIdsOf nodes).length := by
  unfold indNormOf
  rw [_minmax_length, indRawOf_length]

theorem wdNormListOf_length (nodes : List (Option QNode))
    (links : List (Option RawLink)) :
    (wdNormListOf nodes links).length = (nodeIdsOf nodes).length := by
  unfold wdNormListOf
  rw [_minmax_length, List.length_map]

theorem wdNormAt_bounds (nodes : List (Option QNode)) (links : List (Option RawLink))
    (i : ℕ) (hi : i < (nodeIdsOf nodes).length) :
    0 ≤ wdNormAt nodes links i ∧ wdNormAt nodes links i ≤ 1 := by
  unfold wdNormAt
  have hlen : i < (wdNormListOf nodes links).length := by
    rw [wdNormListOf_length]
    exact hi
  exact _minmax_mem_bounds _ _ (getD_mem _ _ hlen _)

/-- C10 (implicit): bounded scores.  For every input, every `rho > 0`, any
log/sqrt primitives with nonnegative square root, and every node position, the
grey relation score (`gamma_sum`) and the composite quanzhong score
(`final_score = 0.75·grey + 0.25·normalized weighted degree`) computed by
`compute_quanzhong_metrics` lie in the half-open interval `(0, 1]`. -/
theorem C10_bounded_scores (nodes : List (Option QNode)) (links : List (Option RawLink))
    (emap : PyStr → Option ERec) (rho : ℚ) (lg sq : ℚ → ℚ) (i : ℕ)
    (hrho : 0 < rho) (hsq : ∀ x, 0 ≤ sq x) (hi : i < (nodeIdsOf nodes).length) :
    (0 < greyRelationAt nodes links emap rho lg sq i ∧
      greyRelationAt nodes links emap rho lg sq i ≤ 1) ∧
    (0 < finalScoreAt nodes links emap rho lg sq i ∧
      finalScoreAt nodes links emap rho lg sq i ≤ 1) := by
  have hgrey := graScore_mem_Ioc (kWeightOf nodes links emap lg sq)
    (indNormOf nodes links emap lg) rho i hrho
    (kWeightOf_nonneg nodes links emap lg sq hsq)
    (kWeightOf_sum nodes links emap lg sq)
    (fun nm _ => by rw [indNormOf_length]; exact hi)
  have hwd := wdNormAt_bounds nodes links i hi
  have hg : greyRelationAt nodes links emap rho lg sq i
      = graScore (kWeightOf nodes links emap lg sq) (indNormOf nodes links emap lg)
          rho i := rfl
  refine ⟨⟨by rw [hg]; exact hgrey.1, by rw [hg]; exact hgrey.2⟩, ?_, ?_⟩
  · unfold finalScoreAt
    rw [hg]
    nlinarith [hgrey.1, hwd.1]
  · unfold finalScoreAt
    rw [hg]
    nlinarith [hgrey.2, hwd.2]

/-- Witness for C10 at the concrete graph with `rho = 1/2`. -/
theorem C10_bounded_scores_witness :
    ((0 : ℚ) < 1/2) ∧ (∀ x : ℚ, 0 ≤ (fun _ : ℚ => (0 : ℚ)) x) ∧
    (0 < (nodeIdsOf nodesC1).length) ∧
    (0 < greyRelationAt nodesC1 linksC1 (fun _ => Option.none) (1/2) (fun x => x)
        (fun _ => 0) 0 ∧
      greyRelationAt nodesC1 linksC1 (fun _ => Option.none) (1/2) (fun x => x)
        (fun _ => 0) 0 ≤ 1) := by
  have h := C10_bounded_scores nodesC1 linksC1 (fun _ => Option.none) (1/2)
    (fun x => x) (fun _ => 0) 0 (by norm_num) (fun x => le_refl 0) (by decide)
  exact ⟨by norm_num, fun x => le_refl 0, by decide, h.1⟩

theorem graScore_of_all_zero (kw : IndName → ℚ) (ind : IndName → List ℚ) (rho : ℚ)
    (n i : ℕ) (hrho : 0 < rho) (hn : 0 < n) (hi : i < n)
    (hind : ∀ nm ∈ ind_names, ind nm = List.replicate n (0 : ℚ))
    (hkw1 : (ind_names.map kw).sum = 1) :
    graScore kw ind rho i = 1 := by
  have h0 : (0 : ℚ) ∈ ind IndName.followers_log := by
    rw [hind _ (by decide)]
    exact List.mem_replicate.mpr ⟨Nat.pos_iff_ne_zero.mp hn, rfl⟩
  have h1mem : (1 : ℚ) ∈ graDeltas ind := by
    have hd := mem_graDeltas ind _ (by decide) _ h0
    rwa [show |1 - (0 : ℚ)| = 1 by norm_num] at hd
  have hall : ∀ y ∈ graDeltas ind, y = 1 := by
    intro y hy
    unfold graDeltas at hy
    rcases List.mem_flatten.mp hy with ⟨l, hl, hyl⟩
    rcases List.mem_map.mp hl with ⟨nm, hnm, hlnm⟩
    rw [← hlnm] at hyl
    rcases List.mem_map.mp hyl with ⟨x, hx, hxy⟩
    rw [hind nm hnm] at hx
    rw [← hxy, (List.mem_replicate.mp hx).2]
    norm_num
  have hne : graDeltas ind ≠ [] := by
    intro he
    rw [he] at h1mem
    simp at h1mem
  have hdmin : graDeltaMin ind = 1 := by
    unfold graDeltaMin
    rw [if_neg hne]
    exact hall _ (pyMin_mem _ hne)
  have hdmaxraw : pyMax (graDeltas ind) = 1 := hall _ (pyMax_mem _ hne)
  have hdmax : graDeltaMax ind = 1 := by
    unfold graDeltaMax
    simp only [if_neg hne]
    rw [hdmaxraw]
    rw [if_neg (by norm_num)]
  unfold graScore
  rw [hdmin, hdmax]
  have hmap : ind_names.map (fun nm => kw nm * ((1 + rho * 1) /
      (|1 - (ind nm).getD i 0| + rho * 1))) = ind_names.map kw := by
    apply List.map_congr_left
    intro nm hnm
    rw [hind nm hnm]
    rw [List.getD_eq_getElem _ _ (by rw [List.length_replicate]; exact hi)]
    rw [List.getElem_replicate]
    rw [show |1 - (0 : ℚ)| = 1 by norm_num]
    rw [div_self (by nlinarith), mul_one]
  rw [hmap, hkw1]

theorem prIterC5 (pr : PyStr → ℚ) (x : PyStr)
    (hx : x = ['n', '1'] ∨ x = ['n', '2']) :
    prIter [['n', '1'], ['n', '2']] (fun _ => ∅) 0.85 2 pr x
      = 3/40 + 17/40 * pr ['n', '1'] + 17/40 * pr ['n', '2'] := by
  unfold prIter prStepOne
  rcases hx with rfl | rfl <;>
    · simp +decide [List.foldl_cons, List.foldl_nil, Finset.not_nonempty_empty,
        Function.update_apply]
      ring

theorem prIterateC5 (k : ℕ) :
    (prIter [['n', '1'], ['n', '2']] (fun _ => ∅) 0.85 2)^[k]
        (fun _ => 1 / ((2 : ℕ) : ℚ)) ['n', '1'] = 1/2 ∧
    (prIter [['n', '1'], ['n', '2']] (fun _ => ∅) 0.85 2)^[k]
        (fun _ => 1 / ((2 : ℕ) : ℚ)) ['n', '2'] = 1/2 := by
  induction k with
  | zero =>
    constructor <;> · simp only [Function.iterate_zero_apply]; norm_num
  | succ k ih =>
    constructor
    · rw [Function.iterate_succ_apply', prIterC5 _ _ (Or.inl rfl), ih.1, ih.2]
      norm_num
    · rw [Function.iterate_succ_apply', prIterC5 _ _ (Or.inr rfl), ih.1, ih.2]
      norm_num

theorem pagerankC5 (x : PyStr) (hx : x = ['n', '1'] ∨ x = ['n', '2']) :
    _pagerank [['n', '1'], ['n', '2']] (fun _ => ∅) 0.85 30 x = 1/2 := by
  unfold _pagerank
  rw [if_neg (show ¬([(['n', '1'] : PyStr), ['n', '2']].length = 0) by decide)]
  rcases hx with rfl | rfl
  · exact (prIterateC5 30).1
  · exact (prIterateC5 30).2

theorem tokensOf_congr (a b : QNode)
    (h : pyLower (List.intercalate [' ']
        [a.name.getD [], a.handle.getD [], a.group.getD [], a.role.getD [],
         a.associated.getD [], a.bio.getD [], tagsBlob a])
      = pyLower (List.intercalate [' ']
        [b.name.getD [], b.handle.getD [], b.group.getD [], b.role.getD [],
         b.associated.getD [], b.bio.getD [], tagsBlob b])) :
    tokensOf a = tokensOf b := by
  unfold tokensOf _tokenize
  dsimp only
  rw [h]

theorem pair_const (x : ℚ) : ∀ a ∈ [x, x], ∀ b ∈ [x, x], a = b := by
  intro a ha b hb
  simp at ha hb
  rw [ha, hb]

theorem _minmax_pair (v : ℚ) : _minmax [v, v] = [0, 0] := by
  rw [_minmax_of_const [v, v] (pair_const v)]
  rfl

theorem indNormC5 (nm : IndName) :
    indNormOf (nodesC5raw.map some) [] (fun _ => Option.none) (fun _ => 0) nm
      = List.replicate 2 0 := by
  unfold indNormOf
  cases nm
  case followers_log =>
    rw [show indRawOf (nodesC5raw.map some) [] (fun _ => Option.none) (fun _ => 0)
        IndName.followers_log = [(0 : ℚ), 0] from rfl, _minmax_pair]
    rfl
  case in_degree =>
    rw [show indRawOf (nodesC5raw.map some) [] (fun _ => Option.none) (fun _ => 0)
        IndName.in_degree = [(((0 : ℕ) : ℚ)), ((0 : ℕ) : ℚ)] from rfl, _minmax_pair]
    rfl
  case out_degree =>
    rw [show indRawOf (nodesC5raw.map some) [] (fun _ => Option.none) (fun _ => 0)
        IndName.out_degree = [(((0 : ℕ) : ℚ)), ((0 : ℕ) : ℚ)] from rfl, _minmax_pair]
    rfl
  case weighted_degree =>
    rw [show indRawOf (nodesC5raw.map some) [] (fun _ => Option.none) (fun _ => 0)
        IndName.weighted_degree = [(0 : ℚ), 0] from rfl, _minmax_pair]
    rfl
  case pagerank =>
    have h1 : _pagerank (nodeIdsOf (nodesC5raw.map some))
        (outMapOf (link_pairs (nodesC5raw.map some) [])) 0.85 30 ['n', '1'] = 1/2 :=
      pagerankC5 ['n', '1'] (Or.inl rfl)
    have h2 : _pagerank (nodeIdsOf (nodesC5raw.map some))
        (outMapOf (link_pairs (nodesC5raw.map some) [])) 0.85 30 ['n', '2'] = 1/2 :=
      pagerankC5 ['n', '2'] (Or.inr rfl)
    rw [show indRawOf (nodesC5raw.map some) [] (fun _ => Option.none) (fun _ => 0)
        IndName.pagerank
      = [_pagerank (nodeIdsOf (nodesC5raw.map some))
          (outMapOf (link_pairs (nodesC5raw.map some) [])) 0.85 30 ['n', '1'],
         _pagerank (nodeIdsOf (nodesC5raw.map some))
          (outMapOf (link_pairs (nodesC5raw.map some) [])) 0.85 30 ['n', '2']] from rfl,
      h1, h2, _minmax_pair]
    rfl
  case semantic_ai =>
    have hsem : semRawOf (nodesC5raw.map some) ['n', '1']
        = semRawOf (nodesC5raw.map some) ['n', '2'] := by
      have ht : tokenMapOf (nodesC5raw.map some) ['n', '1']
          = tokenMapOf (nodesC5raw.map some) ['n', '2'] := by
        show ((nodeMapOf (nodesC5raw.map some) ['n', '1']).map tokensOf).getD ∅
          = ((nodeMapOf (nodesC5raw.map some) ['n', '2']).map tokensOf).getD ∅
        rw [show nodeMapOf (nodesC5raw.map some) ['n', '1']
            = some { id := some ['n', '1'], handle := some "Bob".toList } from rfl,
          show nodeMapOf (nodesC5raw.map some) ['n', '2']
            = some { id := some ['n', '2'], handle := some "bOB".toList } from rfl]
        show tokensOf { id := some ['n', '1'], handle := some "Bob".toList }
          = tokensOf { id := some ['n', '2'], handle := some "bOB".toList }
        exact tokensOf_congr _ _ (by decide)
      unfold semRawOf
      dsimp only
      rw [ht]
    rw [show indRawOf (nodesC5raw.map some) [] (fun _ => Option.none) (fun _ => 0)
        IndName.semantic_ai
      = [semRawOf (nodesC5raw.map some) ['n', '1'],
         semRawOf (nodesC5raw.map some) ['n', '2']] from rfl, hsem, _minmax_pair]
    rfl
  case cross_follow_ratio =>
    have hcfr : crossFollowRatioOf (nodesC5raw.map some) [] ['n', '1']
        = crossFollowRatioOf (nodesC5raw.map some) [] ['n', '2'] := rfl
    rw [show indRawOf (nodesC5raw.map some) [] (fun _ => Option.none) (fun _ => 0)
        IndName.cross_follow_ratio
      = [crossFollowRatioOf (nodesC5raw.map some) [] ['n', '1'],
         crossFollowRatioOf (nodesC5raw.map some) [] ['n', '2']] from rfl, hcfr,
      _minmax_pair]
    rfl
  case posts_count =>
    rw [show indRawOf (nodesC5raw.map some) [] (fun _ => Option.none) (fun _ => 0)
        IndName.posts_count = [(0 : ℚ), 0] from rfl, _minmax_pair]
    rfl
  case comments_count =>
    rw [show indRawOf (nodesC5raw.map some) [] (fun _ => Option.none) (fun _ => 0)
        IndName.comments_count = [(0 : ℚ), 0] from rfl, _minmax_pair]
    rfl
  case likes_count =>
    rw [show indRawOf (nodesC5raw.map some) [] (fun _ => Option.none) (fun _ => 0)
        IndName.likes_count = [(0 : ℚ), 0] from rfl, _minmax_pair]
    rfl
  case reposts_count =>
    rw [show indRawOf (nodesC5raw.map some) [] (fun _ => Option.none) (fun _ => 0)
        IndName.reposts_count = [(0 : ℚ), 0] from rfl, _minmax_pair]
    rfl

theorem greyC5 (i : ℕ) (hi : i < 2) :
    greyRelationAt (nodesC5raw.map some) [] (fun _ => Option.none) (1/2)
      (fun _ => 0) (fun _ => 0) i = 1 := by
  unfold greyRelationAt
  exact graScore_of_all_zero _ _ _ 2 i (by norm_num) (by norm_num) hi
    (fun nm _ => indNormC5 nm)
    (kWeightOf_sum (nodesC5raw.map some) [] (fun _ => Option.none)
      (fun _ => 0) (fun _ => 0))

theorem wdNormListC5 : wdNormListOf (nodesC5raw.map some) [] = [0, 0] := by
  unfold wdNormListOf
  rw [show (nodeIdsOf (nodesC5raw.map some)).map
      (weightedDegreeOf (nodesC5raw.map some) []) = [(0 : ℚ), 0] from rfl, _minmax_pair]

theorem finalC5 (i : ℕ) (hi : i < 2) :
    finalScoreAt (nodesC5raw.map some) [] (fun _ => Option.none) (1/2)
      (fun _ => 0) (fun _ => 0) i = 0.75 := by
  unfold finalScoreAt wdNormAt
  rw [greyC5 i hi, wdNormListC5]
  rcases (show i = 0 ∨ i = 1 by omega) with rfl | rfl <;>
    norm_num [List.getD_cons_zero, List.getD_cons_succ]

/-- C5: counterexample to tie-break totality as stated. On two structurally
identical nodes whose handles differ only in letter case (`Bob` vs `bOB`), the
ranking pipeline produces two distinct rows (their ids differ) whose
four-component sort keys coincide exactly, because the final handle component
is compared after lowercasing. -/
theorem C5_counterexample :
    rowsC5.length = 2 ∧
    rowsC5.getD 0 default ≠ rowsC5.getD 1 default ∧
    sortKey (rowsC5.getD 0 default) = sortKey (rowsC5.getD 1 default) := by
  have hid0 : (rowsC5.getD 0 default).id = ['n', '1'] := rfl
  have hid1 : (rowsC5.getD 1 default).id = ['n', '2'] := rfl
  have hq : (rowsC5.getD 0 default).quanzhong_score
      = (rowsC5.getD 1 default).quanzhong_score := by
    rw [show (rowsC5.getD 0 default).quanzhong_score
        = pyRound (finalScoreAt (nodesC5raw.map some) [] (fun _ => Option.none) (1/2)
            (fun _ => 0) (fun _ => 0) 0) 6 from rfl,
      show (rowsC5.getD 1 default).quanzhong_score
        = pyRound (finalScoreAt (nodesC5raw.map some) [] (fun _ => Option.none) (1/2)
            (fun _ => 0) (fun _ => 0) 1) 6 from rfl,
      finalC5 0 (by norm_num), finalC5 1 (by norm_num)]
  have hg : (rowsC5.getD 0 default).grey_relation
      = (rowsC5.getD 1 default).grey_relation := by
    rw [show (rowsC5.getD 0 default).grey_relation
        = pyRound (greyRelationAt (nodesC5raw.map some) [] (fun _ => Option.none) (1/2)
            (fun _ => 0) (fun _ => 0) 0) 6 from rfl,
      show (rowsC5.getD 1 default).grey_relation
        = pyRound (greyRelationAt (nodesC5raw.map some) [] (fun _ => Option.none) (1/2)
            (fun _ => 0) (fun _ => 0) 1) 6 from rfl,
      greyC5 0 (by norm_num), greyC5 1 (by norm_num)]
  have ha : (rowsC5.getD 0 default).association_weight
      = (rowsC5.getD 1 default).association_weight := rfl
  have hh : pyLower (rowsC5.getD 0 default).handle
      = pyLower (rowsC5.getD 1 default).handle := by decide
  refine ⟨rfl, ?_, ?_⟩
  · intro h
    rw [h, hid1] at hid0
    exact absurd hid0 (by decide)
  · show (-(rowsC5.getD 0 default).quanzhong_score,
        -(rowsC5.getD 0 default).grey_relation,
        -(rowsC5.getD 0 default).association_weight,
        pyLower (rowsC5.getD 0 default).handle)
      = (-(rowsC5.getD 1 default).quanzhong_score,
        -(rowsC5.getD 1 default).grey_relation,
        -(rowsC5.getD 1 default).association_weight,
        pyLower (rowsC5.getD 1 default).handle)
    rw [hq, hg, ha, hh]

/-- C5 (amended): the four-component sort key of `quanzhong_rank.main` —
descending composite score, then descending grey relation, then descending
association weight, then ascending lowercased handle — distinguishes every two
rows whose lowercased handles differ. (Totality fails in general: two distinct
rows can share all four components when their handles coincide up to case and
their metrics tie, as `C5_counterexample` shows.) -/
theorem C5_tiebreak_totality (r1 r2 : Row)
    (h : pyLower r1.handle ≠ pyLower r2.handle) :
    sortKey r1 ≠ sortKey r2 := by
  intro he
  exact h (congrArg (fun t => t.2.2.2) he)

theorem C5_tiebreak_totality_witness :
    pyLower (default : Row).handle
        ≠ pyLower ({ id := ['z'], name := ['z'], handle := ['z'],
                     quanzhong_score := 0, grey_relation := 0,
                     association_weight := 0 } : Row).handle ∧
    sortKey (default : Row)
        ≠ sortKey ({ id := ['z'], name := ['z'], handle := ['z'],
                     quanzhong_score := 0, grey_relation := 0,
                     association_weight := 0 } : Row) :=
  ⟨by decide, C5_tiebreak_totality _ _ (by decide)⟩
